import Mathlib

/-!
Verification of the `dmq` object-graph fetch executor (`src/dmq/__init__.py`).

The development is a shallow embedding of the executor: Python record values
become the inductive type `Val`, query descriptors become `Query`/`Rfields`
(the ordered dataclass-field list of a result type, each field either a plain
core attribute or an extra field carrying a sub-query), fetcher registrations
become `RootFetcher`/`FieldFetcher`, and the executor methods `fetch`,
`_fetch_core`, `_add_fields`, `_fetch_field` and `_fetch_field_core` become
the Lean functions `fetch`, `fetchCore`, `addFields`/`addLoop`, `fetchField`
and `findField`.  Python exceptions (the `ValueError` raised on a failed
fetcher lookup, `TypeError` from dataclass construction, `StopIteration` from
an exhausted iterator, and failures of user-supplied fetchers) are modelled
with `Except Fault`.  Runtime `isinstance` dispatch on a query's class is
modelled by tagging each query value with a `variant` number and each fetcher
with the variant it accepts.  Field fetchers in Python also receive the
executor itself as an argument; none of the executor's own code paths depend
on it, so the embedded fetchers take only the query and the parents batch.

In addition to its result, each embedded resolution step returns a `CallTree`
trace: one node per field-fetcher invocation, recording the sub-query, the
parent type, the exact parents batch passed to the fetcher, and the nested
invocations made while resolving deeper fields.  This makes the batching
behaviour (one call per declared field per nesting level) observable.
-/

/-- A runtime value: an opaque scalar, a dataclass instance (ordered
attribute list), a plain dict (as produced by `dataclasses.asdict`), or a
list.  `flatten`/`unflatten` in `_fetch_field` distinguish exactly lists
from non-lists, and `dataclasses.asdict` distinguishes dataclass instances,
dicts and lists from scalars. -/
inductive Val where
  | base (n : Nat)
  | record (attrs : List (String × Val))
  | dict (attrs : List (String × Val))
  | vlist (elems : List Val)

/-- Ordered attribute list of a record or dict (Python keeps dict insertion
order and dataclass field order). -/
abbrev AttrList := List (String × Val)

mutual

/-- `flatten` from `Executor._fetch_field`: a list is recursively flattened
and concatenated in order; any non-list value is a single leaf. -/
def flattenVal : Val → List Val
  | .vlist es => flattenVals es
  | v => [v]
termination_by v => sizeOf v

/-- `flatten` applied elementwise to the members of a list, concatenated. -/
def flattenVals : List Val → List Val
  | [] => []
  | v :: vs => flattenVal v ++ flattenVals vs
termination_by vs => sizeOf vs

end

mutual
/-- A query (`Query[T]` instance): a runtime variant tag standing for the
query's concrete class (used by `isinstance` dispatch), together with the
dataclass-field list of its `result_type`. -/
inductive Query where
  | mk (variant : Nat) (rfields : Rfields)
/-- The ordered `dataclasses.fields(result_type)` list.  A `coreField` is a
field with no `"query"` metadata; an `extraField` was declared through
`field(query)` and carries its sub-query. -/
inductive Rfields where
  | nil
  | coreField (name : String) (rest : Rfields)
  | extraField (name : String) (sub : Query) (rest : Rfields)
end

/-- The runtime class tag of a query. -/
def Query.variant : Query → Nat
  | .mk v _ => v

/-- The dataclass fields of a query's `result_type`. -/
def Query.rfields : Query → Rfields
  | .mk _ fs => fs

/-- Errors: the `ValueError` raised by `_fetch_core` (carrying the query),
the `ValueError` raised by `_fetch_field_core` (carrying the query and the
parent type), `TypeError` from dataclass construction, `StopIteration` from
`unflatten`, and arbitrary failures of user-supplied fetchers. -/
inductive Fault where
  | noRootFetcher (q : Query)
  | noFieldFetcher (q : Query) (parentType : Nat)
  | typeError
  | stopIteration
  | fetcherFailure (n : Nat)

mutual

/-- `unflatten` from `Executor._fetch_field`: rebuild the shape of the first
argument, consuming one replacement item per leaf position from the front of
the second.  `next` on an exhausted iterator raises `StopIteration`.  Returns
the rebuilt value together with the unconsumed remainder of the results. -/
def unflattenVal : Val → List Val → Except Fault (Val × List Val)
  | .vlist es, rs => do
    let (es2, rs2) ← unflattenVals es rs
    pure (.vlist es2, rs2)
  | _, r :: rs => pure (r, rs)
  | _, [] => .error .stopIteration
termination_by v _ => sizeOf v

/-- `unflatten` over each member of a list in order, threading the results. -/
def unflattenVals : List Val → List Val → Except Fault (List Val × List Val)
  | [], rs => pure ([], rs)
  | v :: vs, rs => do
    let (v2, rs2) ← unflattenVal v rs
    let (vs2, rs3) ← unflattenVals vs rs2
    pure (v2 :: vs2, rs3)
termination_by vs _ => sizeOf vs

end

/-- A root-fetcher registration: the accepted query variant (`from_type`),
the produced core type (`to_type`), and the handler. -/
structure RootFetcher where
  fromVariant : Nat
  toType : Nat
  run : Query → Except Fault (List Val)

/-- A field-fetcher registration: the accepted query variant (`from_type`),
the produced field type (`to_type`), the declared parent type
(`parent_type`), and the handler, which receives the full parents batch. -/
structure FieldFetcher where
  fromVariant : Nat
  toType : Nat
  parentType : Nat
  run : Query → List Val → Except Fault (List Val)

/-- The executor's registry: the ordered root and field fetcher lists given
to `Executor.__init__`. -/
structure Executor where
  rootFetchers : List RootFetcher
  fieldFetchers : List FieldFetcher

/-- Trace of one field-fetcher invocation: the sub-query and parent type it
was dispatched on, the exact parents batch it received, and the invocations
performed while resolving the deeper declared fields of its result type. -/
inductive CallTree where
  | node (q : Query) (parentType : Nat) (parents : List Val) (nested : List CallTree)

/-- `isinstance(query, fetcher.from_type)` for a root fetcher. -/
def matchesRoot (q : Query) (f : RootFetcher) : Bool :=
  q.variant == f.fromVariant

/-- The scan in `_fetch_core`: first registered root fetcher accepting the
query's variant, in registration order. -/
def findRoot : List RootFetcher → Query → Option RootFetcher
  | [], _ => none
  | f :: fs, q => if matchesRoot q f then some f else findRoot fs q

/-- `isinstance(query, fetcher.from_type) and fetcher.parent_type ==
parent_type` for a field fetcher. -/
def matchesField (q : Query) (parentType : Nat) (f : FieldFetcher) : Bool :=
  q.variant == f.fromVariant && f.parentType == parentType

/-- The scan in `_fetch_field_core`: first registered field fetcher accepting
the query's variant whose declared parent type equals the given one. -/
def findField : List FieldFetcher → Query → Nat → Option FieldFetcher
  | [], _, _ => none
  | f :: fs, q, pt => if matchesField q pt f then some f else findField fs q pt

/-- Python dict lookup `d.get(k)` over an ordered association list. -/
def lookupKw : AttrList → String → Option Val
  | [], _ => none
  | (k2, v) :: rest, k => if k2 == k then some v else lookupKw rest k

/-- Python dict assignment `d[k] = v`: update in place if the key exists,
otherwise append at the end (insertion order). -/
def dictSet : AttrList → String → Val → AttrList
  | [], k, v => [(k, v)]
  | (k2, v2) :: rest, k, v => if k2 == k then (k, v) :: rest else (k2, v2) :: dictSet rest k v

/-- The mutation loop in `_add_fields`:
`for d, value in zip(extra_field_values, field_values): d[name] = value`.
`zip` stops at the shorter list, leaving the remaining accumulators
untouched. -/
def zipSetField : List AttrList → String → List Val → List AttrList
  | a :: as, k, v :: vs => dictSet a k v :: zipSetField as k vs
  | accs, _, [] => accs
  | [], _, _ => []

mutual

/-- `dataclasses.asdict`'s inner conversion: dataclass instances become
dicts, lists and dicts are rebuilt recursively, scalars are deep-copied
(immutable scalars are returned as-is). -/
def asdictVal : Val → Val
  | .base n => .base n
  | .record attrs => .dict (asdictAttrs attrs)
  | .dict attrs => .dict (asdictAttrs attrs)
  | .vlist es => .vlist (asdictElems es)
termination_by v => sizeOf v

/-- `asdict`'s conversion over each attribute of a record or dict. -/
def asdictAttrs : AttrList → AttrList
  | [] => []
  | (k, v) :: rest => (k, asdictVal v) :: asdictAttrs rest
termination_by attrs => sizeOf attrs

/-- `asdict`'s conversion over each element of a list. -/
def asdictElems : List Val → List Val
  | [] => []
  | v :: vs => asdictVal v :: asdictElems vs
termination_by vs => sizeOf vs

end

/-- `dataclasses.asdict(core)`: the attribute dict of a dataclass instance;
`TypeError` on a non-dataclass argument. -/
def asdict : Val → Except Fault AttrList
  | .record attrs => .ok (asdictAttrs attrs)
  | _ => .error .typeError

/-- The declared field names of a result type, in dataclass order. -/
def fieldNames : Rfields → List String
  | .nil => []
  | .coreField n rest => n :: fieldNames rest
  | .extraField n _ rest => n :: fieldNames rest

/-- Whether the keys of an association list are pairwise distinct.  Keyword
arguments assembled by `f(**a, **b)` must not repeat a key (`TypeError:
multiple values for keyword argument` otherwise). -/
def nodupKeys : AttrList → Bool
  | [] => true
  | (k, _) :: rest => !(rest.any (fun p => p.1 == k)) && nodupKeys rest

/-- Binding of the dataclass constructor's parameters: each declared field,
in order, takes its value from the keyword arguments; a missing field raises
`TypeError`. -/
def constructFields : Rfields → AttrList → Except Fault AttrList
  | .nil, _ => .ok []
  | .coreField name rest, kwargs =>
    match lookupKw kwargs name with
    | none => .error .typeError
    | some v => do
      let tail ← constructFields rest kwargs
      pure ((name, v) :: tail)
  | .extraField name _ rest, kwargs =>
    match lookupKw kwargs name with
    | none => .error .typeError
    | some v => do
      let tail ← constructFields rest kwargs
      pure ((name, v) :: tail)

/-- `result_type(**kwargs)`: fails if a keyword repeats (the `**` merge), if
a keyword is not a declared field, or if a declared field is missing;
otherwise builds the record with its attributes in declared field order. -/
def construct (rfields : Rfields) (kwargs : AttrList) : Except Fault Val :=
  if nodupKeys kwargs && kwargs.all (fun p => (fieldNames rfields).contains p.1) then
    match constructFields rfields kwargs with
    | .error e => .error e
    | .ok attrs => .ok (.record attrs)
  else
    .error .typeError

/-- One composed output record:
`query.result_type(**dataclasses.asdict(core), **field_values)`. -/
def constructOne (rfields : Rfields) (core : Val) (acc : AttrList) : Except Fault Val := do
  let coreAttrs ← asdict core
  construct rfields (coreAttrs ++ acc)

/-- The output comprehension of `_add_fields`: one composed record per
`zip(cores, extra_field_values)` pair. -/
def constructAll (rfields : Rfields) : List Val → List AttrList → Except Fault (List Val)
  | core :: cs, acc :: accs => do
    let r ← constructOne rfields core acc
    let rest ← constructAll rfields cs accs
    pure (r :: rest)
  | _, _ => .ok []

mutual

/-- `Executor._add_fields(cores, query, parent_type)`: start one empty
accumulator per core record, resolve each declared extra field of the result
type in order into the accumulators, then construct the composed records.
Also returns the field-fetcher invocation trace, one tree per declared extra
field. -/
def addFields (ex : Executor) (cores : List Val) (q : Query) (parentType : Nat) :
    Except Fault (List Val × List CallTree) :=
  match q with
  | .mk _ rfields => do
    let (accs, trees) ← addLoop ex cores rfields parentType (cores.map (fun _ => []))
    let out ← constructAll rfields cores accs
    pure (out, trees)

/-- The `for field in dataclasses.fields(...)` loop of `_add_fields`: fields
without a `"query"` metadata entry are skipped; for each declared extra field
the body of `_fetch_field` runs (here inlined so that the recursion is
structural on the query; `addLoop_extraField` below restates this case in
terms of the standalone `fetchField`) and the returned values are zipped into
the accumulators under the field's name. -/
def addLoop (ex : Executor) (cores : List Val) (fields : Rfields) (parentType : Nat)
    (accs : List AttrList) : Except Fault (List AttrList × List CallTree) :=
  match fields with
  | .nil => .ok (accs, [])
  | .coreField _ rest => addLoop ex cores rest parentType accs
  | .extraField name sub rest => do
    let (vals, tree) ←
      match findField ex.fieldFetchers sub parentType with
      | none => .error (.noFieldFetcher sub parentType)
      | some f =>
        match f.run sub cores with
        | .error e => .error e
        | .ok raw => do
          let (augmented, trees) ← addFields ex (flattenVals raw) sub f.toType
          let (res, _) ← unflattenVals raw augmented
          pure (res, CallTree.node sub parentType cores trees)
    let (accs2, trees) ← addLoop ex cores rest parentType (zipSetField accs name vals)
    pure (accs2, tree :: trees)

end

/-- `Executor._fetch_field(query, parent_type, parents)`: dispatch the
sub-query and parent type to the first matching field fetcher with the full
parents batch (`_fetch_field_core`), flatten the raw nested result, resolve
the result type's own declared fields on the flat batch, and unflatten back
into the raw nesting.  The trace node records this single invocation. -/
def fetchField (ex : Executor) (q : Query) (parentType : Nat) (parents : List Val) :
    Except Fault (List Val × CallTree) :=
  match findField ex.fieldFetchers q parentType with
  | none => .error (.noFieldFetcher q parentType)
  | some f =>
    match f.run q parents with
    | .error e => .error e
    | .ok raw => do
      let (augmented, trees) ← addFields ex (flattenVals raw) q f.toType
      let (res, _) ← unflattenVals raw augmented
      pure (res, CallTree.node q parentType parents trees)

/-- `Executor._fetch_core(query)`: dispatch to the first matching root
fetcher, returning its declared core type and its records; `ValueError`
carrying the query when no registration matches. -/
def fetchCore (ex : Executor) (q : Query) : Except Fault (Nat × List Val) :=
  match findRoot ex.rootFetchers q with
  | none => .error (.noRootFetcher q)
  | some f =>
    match f.run q with
    | .error e => .error e
    | .ok cores => .ok (f.toType, cores)

/-- `Executor.fetch(query)`: resolve the core records, then add the declared
extra fields. -/
def fetch (ex : Executor) (q : Query) : Except Fault (List Val × List CallTree) := do
  let (coreType, cores) ← fetchCore ex q
  addFields ex cores q coreType

/-! ### Observation helpers -/

/-- The declared extra fields of a result type, in order: those dataclass
fields carrying a `"query"` metadata entry, with their sub-queries. -/
def extras : Rfields → List (String × Query)
  | .nil => []
  | .coreField _ rest => extras rest
  | .extraField n sub rest => (n, sub) :: extras rest

/-- The names of the declared extra fields, in order. -/
def extraNames (fields : Rfields) : List String :=
  (extras fields).map Prod.fst

/-- Attribute access on a composed or core record. -/
def attrLookup (v : Val) (k : String) : Option Val :=
  match v with
  | .record attrs => lookupKw attrs k
  | _ => none

/-- A value that `flatten` treats as a single leaf (anything but a list). -/
def leafLike : Val → Bool
  | .vlist _ => false
  | _ => true

mutual

/-- A value left unchanged by `dataclasses.asdict`'s conversion: scalars,
and dicts or lists of such values; dataclass instances are not (they become
dicts). -/
def isPlain : Val → Bool
  | .base _ => true
  | .record _ => false
  | .dict attrs => isPlainAttrs attrs
  | .vlist es => isPlainElems es
termination_by v => sizeOf v

/-- All attribute values plain. -/
def isPlainAttrs : AttrList → Bool
  | [] => true
  | (_, v) :: rest => isPlain v && isPlainAttrs rest
termination_by attrs => sizeOf attrs

/-- All list elements plain. -/
def isPlainElems : List Val → Bool
  | [] => true
  | v :: vs => isPlain v && isPlainElems vs
termination_by vs => sizeOf vs

end

/-- A dataclass instance whose attribute values are all plain. -/
def plainRecord : Val → Bool
  | .record attrs => isPlainAttrs attrs
  | _ => false

/-- A core record shaped exactly as a result type's field list demands: a
dataclass instance whose attribute names are the declared field names in
declared order, pairwise distinct, with plain values. -/
def wellFormedCore (rfields : Rfields) : Val → Bool
  | .record attrs =>
    decide (attrs.map Prod.fst = fieldNames rfields) && isPlainAttrs attrs && nodupKeys attrs
  | _ => false

/-- The shape descriptor of a nested-list structure: each position is a leaf
or a list of child shapes (spec section 4.4). -/
inductive Shape where
  | leaf
  | node (children : List Shape)

mutual

/-- The shape of a value: lists recursively, every non-list a leaf. -/
def shapeOf : Val → Shape
  | .vlist es => .node (shapesOf es)
  | _ => .leaf
termination_by v => sizeOf v

/-- The shapes of the members of a list. -/
def shapesOf : List Val → List Shape
  | [] => []
  | v :: vs => shapeOf v :: shapesOf vs
termination_by vs => sizeOf vs

end

mutual

/-- The spec's reading of `unflatten(shape, flatResults)` (section 4.4): it
consumes the results in order, reconstructing the nested structure recorded
by the shape descriptor alone, substituting one consumed item per original
leaf position.  `unflatten_shapeOnly` below proves the code's `unflatten`
computes exactly this on its argument's shape. -/
def unflattenShape : Shape → List Val → Option (Val × List Val)
  | .leaf, r :: rs => some (r, rs)
  | .leaf, [] => none
  | .node cs, rs => do
    let (ws, rs2) ← unflattenShapes cs rs
    pure (.vlist ws, rs2)
termination_by sh _ => sizeOf sh

/-- `unflattenShape` over a list of child shapes in order. -/
def unflattenShapes : List Shape → List Val → Option (List Val × List Val)
  | [], rs => some ([], rs)
  | c :: cs, rs => do
    let (w, rs2) ← unflattenShape c rs
    let (ws, rs3) ← unflattenShapes cs rs2
    pure (w :: ws, rs3)
termination_by cs _ => sizeOf cs

end

/-- Induction principle for a result type's field list (the `extras` and
`fieldNames` recursions never descend into the sub-queries). -/
def rfieldsInd (P : Rfields → Prop) (h0 : P .nil)
    (h1 : ∀ n rest, P rest → P (.coreField n rest))
    (h2 : ∀ n sub rest, P rest → P (.extraField n sub rest)) : ∀ fields, P fields
  | .nil => h0
  | .coreField n rest => h1 n rest (rfieldsInd P h0 h1 h2 rest)
  | .extraField n sub rest => h2 n sub rest (rfieldsInd P h0 h1 h2 rest)
termination_by fields => sizeOf fields

/-- Forget which fault an `Except` failed with. -/
def exceptOpt : Except Fault α → Option α
  | .ok a => some a
  | .error _ => none

/-! ### Flatten / unflatten -/

section

variable (P : Val → Prop) (Q : List Val → Prop) (R : AttrList → Prop)
variable (hbase : ∀ n, P (.base n))
variable (hrecord : ∀ attrs, R attrs → P (.record attrs))
variable (hdict : ∀ attrs, R attrs → P (.dict attrs))
variable (hvlist : ∀ es, Q es → P (.vlist es))
variable (hnil : Q [])
variable (hcons : ∀ v vs, P v → Q vs → Q (v :: vs))
variable (hanil : R [])
variable (hacons : ∀ k v rest, P v → R rest → R ((k, v) :: rest))

mutual

/-- Mutual induction for `Val`, its element lists and its attribute lists. -/
def valInd : ∀ v : Val, P v
  | .base n => hbase n
  | .record attrs => hrecord attrs (attrInd attrs)
  | .dict attrs => hdict attrs (attrInd attrs)
  | .vlist es => hvlist es (listInd es)

/-- Mutual induction for `Val`: the element-list component. -/
def listInd : ∀ vs : List Val, Q vs
  | [] => hnil
  | v :: vs => hcons v vs (valInd v) (listInd vs)

/-- Mutual induction for `Val`: the attribute-list component. -/
def attrInd : ∀ attrs : AttrList, R attrs
  | [] => hanil
  | (k, v) :: rest => hacons k v rest (valInd v) (attrInd rest)

end

/-- Packaged mutual induction for `Val`. -/
def valInd3 : (∀ v, P v) ∧ (∀ vs, Q vs) ∧ (∀ attrs, R attrs) :=
  ⟨valInd P Q R hbase hrecord hdict hvlist hnil hcons hanil hacons,
   listInd P Q R hbase hrecord hdict hvlist hnil hcons hanil hacons,
   attrInd P Q R hbase hrecord hdict hvlist hnil hcons hanil hacons⟩

end

/-! ### Concrete scenario (spec section 8): posts, comments, authors -/

/-- The user sub-query (`User.query()`): variant 2, result type `User` with
the single core attribute `username`. -/
def userQuery : Query := .mk 2 (.coreField "username" .nil)

/-- The comment sub-query for `CommentWithAuthor`: variant 1, core attribute
`body` plus the declared `author` field. -/
def commentQuery : Query := .mk 1 (.coreField "body" (.extraField "author" userQuery .nil))

/-- The post query for `PostWithComments`: variant 0, core attribute `title`
plus the declared `comments` field. -/
def postQuery : Query := .mk 0 (.coreField "title" (.extraField "comments" commentQuery .nil))

/-- A post record. -/
def post (n : Nat) : Val := .record [("title", .base n)]

/-- A comment record. -/
def comment (n : Nat) : Val := .record [("body", .base n)]

/-- An author record. -/
def author (n : Nat) : Val := .record [("username", .base n)]

/-- Root fetcher producing posts `[p1, p2, p3]` (core type tag 10). -/
def postFetcher : RootFetcher :=
  ⟨0, 10, fun _ => .ok [post 1, post 2, post 3]⟩

/-- Field fetcher for comments on posts: parent type 10, value type 11,
returning the per-parent lists `[[], [c1, c2], [c3]]`. -/
def commentFetcher : FieldFetcher :=
  ⟨1, 11, 10, fun _ _ => .ok [.vlist [], .vlist [comment 1, comment 2], .vlist [comment 3]]⟩

/-- Field fetcher for comment authors: parent type 11, value type 12,
returning `[a1, a2, a3]` aligned with the flattened comments. -/
def authorFetcher : FieldFetcher :=
  ⟨2, 12, 11, fun _ _ => .ok [author 1, author 2, author 3]⟩

/-- The scenario executor. -/
def scenarioEx : Executor := ⟨[postFetcher], [commentFetcher, authorFetcher]⟩

/-- The composed comment records with their author field filled in. -/
def commentOut (n : Nat) : Val := .record [("body", .base n), ("author", author n)]

/-- The composed post records with their comments field filled in. -/
def postOut (n : Nat) (cs : List Val) : Val := .record [("title", .base n), ("comments", .vlist cs)]

/-- The expected composed output of the scenario fetch. -/
def scenarioOut : List Val :=
  [postOut 1 [], postOut 2 [commentOut 1, commentOut 2], postOut 3 [commentOut 3]]

/-- The expected invocation trace of the scenario fetch: one comments fetch
with all three posts, nesting one author fetch with all three comments. -/
def scenarioTrees : List CallTree :=
  [CallTree.node commentQuery 10 [post 1, post 2, post 3]
    [CallTree.node userQuery 11 [comment 1, comment 2, comment 3] []]]

/-- A root fetcher whose handler fails (an underlying fetch failure). -/
def failingRoot : RootFetcher := ⟨0, 10, fun _ => .error (.fetcherFailure 7)⟩

/-- Executor with only the failing root fetcher. -/
def failEx : Executor := ⟨[failingRoot], []⟩

/-- Executor with no registrations at all. -/
def emptyEx : Executor := ⟨[], []⟩

/-- A root fetcher that accepts the post query but returns no records. -/
def emptyRoot : RootFetcher := ⟨0, 10, fun _ => .ok []⟩

/-- Executor that resolves posts to an empty batch and registers no field
fetchers. -/
def orphanEx : Executor := ⟨[emptyRoot], []⟩

/-- A query with one plain core attribute and no declared extra fields. -/
def simpleQuery : Query := .mk 5 (.coreField "x" .nil)

/-- Root fetcher for `simpleQuery` (core type tag 20). -/
def simpleRoot : RootFetcher :=
  ⟨5, 20, fun _ => .ok [.record [("x", .base 1)], .record [("x", .base 2)]]⟩

/-- Executor with only `simpleRoot` registered. -/
def simpleEx : Executor := ⟨[simpleRoot], []⟩

/-- A second root fetcher with the same accepted variant as `simpleRoot`,
registered later (unreachable by first-match lookup). -/
def shadowRoot : RootFetcher := ⟨5, 21, fun _ => .ok []⟩

/-- The nested structure used to witness the flatten/unflatten round trip. -/
def roundTripVal : Val := .vlist [.base 0, .vlist [.base 1, .base 2]]

/-- A replacement sequence with the same leaf count as `roundTripVal`. -/
def roundTripSeq : List Val := [.base 7, .record [("y", .base 8)], .base 9]

/-! ### Basic rewriting lemmas -/

@[simp] theorem okBind {α β : Type} (a : α) (f : α → Except Fault β) :
    (Except.ok a >>= f) = f a := rfl

@[simp] theorem errorBind {α β : Type} (e : Fault) (f : α → Except Fault β) :
    ((Except.error e : Except Fault α) >>= f) = Except.error e := rfl

@[simp] theorem pureExcept {α : Type} (a : α) : (pure a : Except Fault α) = Except.ok a := rfl


/-- The extra-field case of `addLoop` is exactly one `fetchField` call
followed by the zip of its values into the accumulators. -/
theorem addLoop_extraField (ex : Executor) (cores : List Val) (name : String) (sub : Query)
    (rest : Rfields) (parentType : Nat) (accs : List AttrList) :
    addLoop ex cores (.extraField name sub rest) parentType accs = (do
      let (vals, tree) ← fetchField ex sub parentType cores
      let (accs2, trees) ← addLoop ex cores rest parentType (zipSetField accs name vals)
      pure (accs2, tree :: trees)) := by
  cases hf : findField ex.fieldFetchers sub parentType with
  | none => simp [addLoop, fetchField, hf]
  | some f =>
    cases hr : f.run sub cores with
    | error e => simp [addLoop, fetchField, hf, hr]
    | ok raw => simp [addLoop, fetchField, hf, hr]


/-- `flatten` of a non-list value is that value alone. -/
theorem flattenVal_leaf (v : Val) (h : leafLike v = true) : flattenVal v = [v] := by
  cases v with
  | base n => simp [flattenVal]
  | record attrs => simp [flattenVal]
  | dict attrs => simp [flattenVal]
  | vlist es => simp [leafLike] at h

/-- Round trip on a non-list value. -/
theorem unflatten_flatten_leaf (v : Val) (h : leafLike v = true) (rest : List Val) :
    unflattenVal v (flattenVal v ++ rest) = .ok (v, rest) := by
  cases v with
  | base n => simp [flattenVal, unflattenVal]
  | record attrs => simp [flattenVal, unflattenVal]
  | dict attrs => simp [flattenVal, unflattenVal]
  | vlist es => simp [leafLike] at h

/-- Round trip on a list value, given the round trip of its members. -/
theorem unflatten_flatten_vlist (es : List Val)
    (ih : ∀ rest, unflattenVals es (flattenVals es ++ rest) = .ok (es, rest)) (rest : List Val) :
    unflattenVal (.vlist es) (flattenVal (.vlist es) ++ rest) = .ok (.vlist es, rest) := by
  simp [flattenVal, unflattenVal, ih rest]

/-- Round trip on an empty member list. -/
theorem unflattens_flattens_nil (rest : List Val) :
    unflattenVals [] (flattenVals [] ++ rest) = .ok ([], rest) := by
  simp [flattenVals, unflattenVals]

/-- Round trip on a nonempty member list, given the round trips of the head
and the tail. -/
theorem unflattens_flattens_cons (v : Val) (vs : List Val)
    (ihv : ∀ rest, unflattenVal v (flattenVal v ++ rest) = .ok (v, rest))
    (ihvs : ∀ rest, unflattenVals vs (flattenVals vs ++ rest) = .ok (vs, rest))
    (rest : List Val) :
    unflattenVals (v :: vs) (flattenVals (v :: vs) ++ rest) = .ok (v :: vs, rest) := by
  simp only [flattenVals, List.append_assoc]
  simp [unflattenVals, ihv (flattenVals vs ++ rest), ihvs rest]

/-- Round trip of `unflatten` after `flatten`, with an arbitrary unconsumed
suffix, simultaneously for values and for lists of values. -/
theorem unflatten_flatten_pair :
    (∀ (v : Val) (rest : List Val), unflattenVal v (flattenVal v ++ rest) = .ok (v, rest)) ∧
    (∀ (vs : List Val) (rest : List Val),
      unflattenVals vs (flattenVals vs ++ rest) = .ok (vs, rest)) := by
  have h := valInd3
    (fun v => ∀ rest, unflattenVal v (flattenVal v ++ rest) = Except.ok (v, rest))
    (fun vs => ∀ rest, unflattenVals vs (flattenVals vs ++ rest) = Except.ok (vs, rest))
    (fun _ => True)
    (fun n => unflatten_flatten_leaf (.base n) rfl)
    (fun attrs _ => unflatten_flatten_leaf (.record attrs) rfl)
    (fun attrs _ => unflatten_flatten_leaf (.dict attrs) rfl)
    (fun es ih => unflatten_flatten_vlist es ih)
    (unflattens_flattens_nil)
    (fun v vs ihv ihvs => unflattens_flattens_cons v vs ihv ihvs)
    trivial
    (fun _ _ _ _ _ => trivial)
  exact ⟨h.1, h.2.1⟩

/-! ### Registry lookup lemmas -/

theorem findRoot_first (fs : List RootFetcher) (q : Query) (f : RootFetcher)
    (h : findRoot fs q = some f) :
    matchesRoot q f = true ∧
    ∃ i, fs.get? i = some f ∧ ∀ j, j < i → ∀ g, fs.get? j = some g → matchesRoot q g = false := by
  induction fs with
  | nil => simp [findRoot] at h
  | cons g gs ih =>
    by_cases hm : matchesRoot q g
    · simp only [findRoot, hm, if_pos] at h
      cases h
      exact ⟨hm, 0, rfl, by omega⟩
    · simp only [findRoot, hm, if_neg, Bool.false_eq_true, not_false_iff] at h
      obtain ⟨hf, i, hi, hfirst⟩ := ih h
      refine ⟨hf, i + 1, by simpa using hi, ?_⟩
      intro j hj g2 hg2
      cases j with
      | zero =>
        simp only [List.get?] at hg2
        cases hg2
        simpa using hm
      | succ j =>
        exact hfirst j (by omega) g2 (by simpa using hg2)

theorem findRoot_append (fs rest : List RootFetcher) (q : Query) (f : RootFetcher)
    (h : findRoot fs q = some f) : findRoot (fs ++ rest) q = some f := by
  induction fs with
  | nil => simp [findRoot] at h
  | cons g gs ih =>
    by_cases hm : matchesRoot q g
    · simp only [findRoot, hm, if_pos] at h
      simp [findRoot, hm, h]
    · simp only [findRoot, hm, if_neg, Bool.false_eq_true, not_false_iff] at h
      simp [findRoot, hm, ih h]

theorem findRoot_none_iff (fs : List RootFetcher) (q : Query) :
    findRoot fs q = none ↔ ∀ g ∈ fs, matchesRoot q g = false := by
  induction fs with
  | nil => simp [findRoot]
  | cons g gs ih =>
    by_cases hm : matchesRoot q g
    · simp [findRoot, hm]
    · simp [findRoot, hm, ih, Bool.not_eq_true _ ▸ hm]

theorem findField_first (fs : List FieldFetcher) (q : Query) (pt : Nat) (f : FieldFetcher)
    (h : findField fs q pt = some f) :
    matchesField q pt f = true ∧
    ∃ i, fs.get? i = some f ∧
      ∀ j, j < i → ∀ g, fs.get? j = some g → matchesField q pt g = false := by
  induction fs with
  | nil => simp [findField] at h
  | cons g gs ih =>
    by_cases hm : matchesField q pt g
    · simp only [findField, hm, if_pos] at h
      cases h
      exact ⟨hm, 0, rfl, by omega⟩
    · simp only [findField, hm, if_neg, Bool.false_eq_true, not_false_iff] at h
      obtain ⟨hf, i, hi, hfirst⟩ := ih h
      refine ⟨hf, i + 1, by simpa using hi, ?_⟩
      intro j hj g2 hg2
      cases j with
      | zero =>
        simp only [List.get?] at hg2
        cases hg2
        simpa using hm
      | succ j =>
        exact hfirst j (by omega) g2 (by simpa using hg2)

theorem findField_append (fs rest : List FieldFetcher) (q : Query) (pt : Nat) (f : FieldFetcher)
    (h : findField fs q pt = some f) : findField (fs ++ rest) q pt = some f := by
  induction fs with
  | nil => simp [findField] at h
  | cons g gs ih =>
    by_cases hm : matchesField q pt g
    · simp only [findField, hm, if_pos] at h
      simp [findField, hm, h]
    · simp only [findField, hm, if_neg, Bool.false_eq_true, not_false_iff] at h
      simp [findField, hm, ih h]

theorem findField_none_iff (fs : List FieldFetcher) (q : Query) (pt : Nat) :
    findField fs q pt = none ↔ ∀ g ∈ fs, matchesField q pt g = false := by
  induction fs with
  | nil => simp [findField]
  | cons g gs ih =>
    by_cases hm : matchesField q pt g
    · simp [findField, hm]
    · simp [findField, hm, ih, Bool.not_eq_true _ ▸ hm]

/-! ### Association-list lemmas -/

theorem lookupKw_dictSet_self (d : AttrList) (k : String) (v : Val) :
    lookupKw (dictSet d k v) k = some v := by
  induction d with
  | nil => simp [dictSet, lookupKw]
  | cons p rest ih =>
    obtain ⟨k2, v2⟩ := p
    by_cases h : k2 = k
    · simp [dictSet, lookupKw, h]
    · simp [dictSet, lookupKw, h, ih]

theorem lookupKw_dictSet_other (d : AttrList) (k k2 : String) (v : Val) (hne : k2 ≠ k) :
    lookupKw (dictSet d k v) k2 = lookupKw d k2 := by
  induction d with
  | nil => simp [dictSet, lookupKw, Ne.symm hne]
  | cons p rest ih =>
    obtain ⟨k3, v3⟩ := p
    by_cases h : k3 = k
    · subst h
      simp [dictSet, lookupKw, Ne.symm hne]
    · by_cases h2 : k3 = k2
      · simp [dictSet, lookupKw, h, h2, hne]
      · simp [dictSet, lookupKw, h, h2, ih]

theorem lookupKw_append_left (xs ys : AttrList) (k : String) (v : Val)
    (h : lookupKw xs k = some v) : lookupKw (xs ++ ys) k = some v := by
  induction xs with
  | nil => simp [lookupKw] at h
  | cons p rest ih =>
    obtain ⟨k2, v2⟩ := p
    by_cases h2 : k2 = k
    · simp only [lookupKw, h2, if_pos, beq_self_eq_true] at h
      simp [lookupKw, h2, h]
    · simp only [lookupKw, h2, beq_iff_eq, if_neg, not_false_iff] at h
      simp [lookupKw, h2, ih h]

theorem lookupKw_append_right (xs ys : AttrList) (k : String)
    (h : lookupKw xs k = none) : lookupKw (xs ++ ys) k = lookupKw ys k := by
  induction xs with
  | nil => simp [lookupKw]
  | cons p rest ih =>
    obtain ⟨k2, v2⟩ := p
    by_cases h2 : k2 = k
    · simp [lookupKw, h2] at h
    · simp only [lookupKw, h2, beq_iff_eq, if_neg, not_false_iff] at h
      simp [lookupKw, h2, ih h]

theorem lookupKw_mem (xs : AttrList) (k : String) (v : Val)
    (h : lookupKw xs k = some v) : (k, v) ∈ xs := by
  induction xs with
  | nil => simp [lookupKw] at h
  | cons p rest ih =>
    obtain ⟨k2, v2⟩ := p
    by_cases h2 : k2 = k
    · subst h2
      simp only [lookupKw, beq_self_eq_true, if_pos] at h
      cases h
      exact List.mem_cons_self _ _
    · simp only [lookupKw, h2, beq_iff_eq, if_neg, not_false_iff] at h
      exact List.mem_cons_of_mem _ (ih h)

theorem lookupKw_anyKey (ys : AttrList) (k : String) (v : Val)
    (h : lookupKw ys k = some v) : (ys.any (fun p => p.1 == k)) = true := by
  induction ys with
  | nil => simp [lookupKw] at h
  | cons p rest ih =>
    obtain ⟨k2, v2⟩ := p
    by_cases h2 : k2 = k
    · simp [List.any_cons, h2]
    · simp only [lookupKw, h2, beq_iff_eq, if_neg, not_false_iff] at h
      simp [List.any_cons, ih h]

theorem nodupKeys_append_none (xs ys : AttrList) (k : String)
    (hnd : nodupKeys (xs ++ ys) = true) (hany : (ys.any (fun p => p.1 == k)) = true) :
    lookupKw xs k = none := by
  induction xs with
  | nil => simp [lookupKw]
  | cons p rest ih =>
    obtain ⟨k2, v2⟩ := p
    rw [List.cons_append] at hnd
    simp only [nodupKeys, Bool.and_eq_true] at hnd
    obtain ⟨hno, hnd2⟩ := hnd
    by_cases h2 : k2 = k
    · subst h2
      exfalso
      have htot : ((rest ++ ys).any fun p => p.1 == k2) = true := by
        rw [List.any_append, hany, Bool.or_true]
      rw [htot] at hno
      simp at hno
    · simp [lookupKw, h2, ih hnd2]

theorem nodupKeys_append_lookup (xs ys : AttrList) (k : String) (v : Val)
    (hnd : nodupKeys (xs ++ ys) = true) (h : lookupKw ys k = some v) :
    lookupKw (xs ++ ys) k = some v := by
  rw [lookupKw_append_right xs ys k (nodupKeys_append_none xs ys k hnd (lookupKw_anyKey ys k v h))]
  exact h

/-! ### zipSetField lemmas -/

theorem zipSetField_length (accs : List AttrList) (k : String) (vs : List Val) :
    (zipSetField accs k vs).length = accs.length := by
  induction accs generalizing vs with
  | nil => cases vs <;> simp [zipSetField]
  | cons a rest ih =>
    cases vs with
    | nil => simp [zipSetField]
    | cons v vs2 => simp [zipSetField, ih]

theorem zipSetField_get? (accs : List AttrList) (k : String) (vs : List Val) (i : Nat) :
    (zipSetField accs k vs)[i]? =
      match accs[i]?, vs[i]? with
      | some a, some v => some (dictSet a k v)
      | some a, none => some a
      | none, _ => none := by
  induction accs generalizing vs i with
  | nil => cases vs <;> simp [zipSetField]
  | cons a rest ih =>
    cases vs with
    | nil =>
      simp only [zipSetField]
      cases i with
      | zero => simp
      | succ n =>
        simp only [List.getElem?_cons_succ]
        cases h : rest[n]? <;> simp [h]
    | cons v vs2 =>
      cases i with
      | zero => simp [zipSetField]
      | succ n => simpa [zipSetField] using ih vs2 n

/-! ### Except inversion helpers -/

theorem bind_ok_inv {α β : Type} (eb : Except Fault α) (f : α → Except Fault β) (x : β)
    (h : (eb >>= f) = .ok x) : ∃ a, eb = .ok a ∧ f a = .ok x := by
  cases eb with
  | ok a => exact ⟨a, rfl, h⟩
  | error e => simp at h

theorem ok_of_bind_ok {α β : Type} {eb : Except Fault α} {f : α → Except Fault β} {x : β}
    (h : (eb >>= f) = .ok x) (a : α) (ha : eb = .ok a) : f a = .ok x := by
  rw [ha] at h
  simpa using h

/-! ### asdict lemmas -/

theorem asdictAttrs_keys (attrs : AttrList) :
    (asdictAttrs attrs).map Prod.fst = attrs.map Prod.fst := by
  induction attrs with
  | nil => simp [asdictAttrs]
  | cons p rest ih =>
    obtain ⟨k, v⟩ := p
    simp [asdictAttrs, ih]

theorem lookupKw_asdictAttrs (attrs : AttrList) (k : String) :
    lookupKw (asdictAttrs attrs) k = (lookupKw attrs k).map asdictVal := by
  induction attrs with
  | nil => simp [asdictAttrs, lookupKw]
  | cons p rest ih =>
    obtain ⟨k2, v⟩ := p
    by_cases h : k2 = k
    · simp [asdictAttrs, lookupKw, h]
    · simp [asdictAttrs, lookupKw, h, ih]

theorem anyKey_asdictAttrs (attrs : AttrList) (k : String) :
    ((asdictAttrs attrs).any fun p => p.1 == k) = (attrs.any fun p => p.1 == k) := by
  induction attrs with
  | nil => simp [asdictAttrs]
  | cons p rest ih =>
    obtain ⟨k2, v⟩ := p
    simp [asdictAttrs, ih]

theorem nodupKeys_asdictAttrs (attrs : AttrList) :
    nodupKeys (asdictAttrs attrs) = nodupKeys attrs := by
  induction attrs with
  | nil => simp [asdictAttrs]
  | cons p rest ih =>
    obtain ⟨k2, v⟩ := p
    simp [asdictAttrs, nodupKeys, ih, anyKey_asdictAttrs]

/-! ### Plain values are fixed by asdict -/

theorem asdict_plain_triple :
    (∀ v : Val, isPlain v = true → asdictVal v = v) ∧
    (∀ vs : List Val, isPlainElems vs = true → asdictElems vs = vs) ∧
    (∀ attrs : AttrList, isPlainAttrs attrs = true → asdictAttrs attrs = attrs) := by
  refine valInd3
    (fun v => isPlain v = true → asdictVal v = v)
    (fun vs => isPlainElems vs = true → asdictElems vs = vs)
    (fun attrs => isPlainAttrs attrs = true → asdictAttrs attrs = attrs)
    ?_ ?_ ?_ ?_ ?_ ?_ ?_ ?_
  · intro n _
    simp [asdictVal]
  · intro attrs _ h
    simp [isPlain] at h
  · intro attrs ih h
    rw [isPlain] at h
    simp [asdictVal, ih h]
  · intro es ih h
    rw [isPlain] at h
    simp [asdictVal, ih h]
  · intro _
    simp [asdictElems]
  · intro v vs ihv ihvs h
    rw [isPlainElems, Bool.and_eq_true] at h
    simp [asdictElems, ihv h.1, ihvs h.2]
  · intro _
    simp [asdictAttrs]
  · intro k v rest ihv ihrest h
    rw [isPlainAttrs, Bool.and_eq_true] at h
    simp [asdictAttrs, ihv h.1, ihrest h.2]

theorem isPlainAttrs_lookup (attrs : AttrList) (k : String) (v : Val)
    (hp : isPlainAttrs attrs = true) (h : lookupKw attrs k = some v) : isPlain v = true := by
  induction attrs with
  | nil => simp [lookupKw] at h
  | cons p rest ih =>
    obtain ⟨k2, v2⟩ := p
    rw [isPlainAttrs, Bool.and_eq_true] at hp
    by_cases h2 : k2 = k
    · simp only [lookupKw, h2, if_pos, beq_self_eq_true] at h
      cases h
      exact hp.1
    · simp only [lookupKw, h2, beq_iff_eq, if_neg, not_false_iff] at h
      exact ih hp.2 h

/-! ### Declared-field list lemmas -/

theorem extraNames_sublist (fields : Rfields) :
    List.Sublist (extraNames fields) (fieldNames fields) := by
  induction fields using rfieldsInd with
  | h0 => simp [extraNames, extras, fieldNames]
  | h1 n rest ih =>
    simp only [extraNames, extras, fieldNames] at *
    exact List.Sublist.cons n ih
  | h2 n sub rest ih =>
    simp only [extraNames, extras, fieldNames, List.map_cons] at *
    exact List.Sublist.cons₂ n ih

theorem extras_name_mem (fields : Rfields) (name : String) (sub : Query)
    (h : (name, sub) ∈ extras fields) : name ∈ extraNames fields := by
  exact List.mem_map_of_mem Prod.fst h

theorem extras_name_fieldNames (fields : Rfields) (name : String) (sub : Query)
    (h : (name, sub) ∈ extras fields) : name ∈ fieldNames fields :=
  (extraNames_sublist fields).mem (extras_name_mem fields name sub h)

/-! ### Construction lemmas -/

theorem contains_of_mem (l : List String) (a : String) (h : a ∈ l) : l.contains a = true :=
  List.elem_eq_true_of_mem h

theorem mem_of_contains (l : List String) (a : String) (h : l.contains a = true) : a ∈ l :=
  List.mem_of_elem_eq_true h

theorem asdict_ok_inv (core : Val) (cattrs : AttrList) (h : asdict core = .ok cattrs) :
    ∃ attrs, core = .record attrs ∧ cattrs = asdictAttrs attrs := by
  cases core with
  | record attrs =>
    refine ⟨attrs, rfl, ?_⟩
    simp only [asdict] at h
    cases h
    rfl
  | base n => simp [asdict] at h
  | dict attrs => simp [asdict] at h
  | vlist es => simp [asdict] at h

theorem construct_ok_inv (rfields : Rfields) (kwargs : AttrList) (r : Val)
    (h : construct rfields kwargs = .ok r) :
    nodupKeys kwargs = true ∧
    (∀ p ∈ kwargs, (fieldNames rfields).contains p.1 = true) ∧
    ∃ attrs, constructFields rfields kwargs = .ok attrs ∧ r = .record attrs := by
  by_cases hc : (nodupKeys kwargs && kwargs.all (fun p => (fieldNames rfields).contains p.1)) = true
  · rw [Bool.and_eq_true] at hc
    refine ⟨hc.1, fun p hp => List.all_eq_true.mp hc.2 p hp, ?_⟩
    rw [construct, if_pos (by rw [Bool.and_eq_true]; exact hc)] at h
    cases hcf : constructFields rfields kwargs with
    | error e => rw [hcf] at h; cases h
    | ok attrs =>
      rw [hcf] at h
      cases h
      exact ⟨attrs, rfl, rfl⟩
  · rw [construct, if_neg hc] at h
    cases h

theorem constructOne_ok_inv (rfields : Rfields) (core : Val) (acc : AttrList) (r : Val)
    (h : constructOne rfields core acc = .ok r) :
    ∃ cattrs, asdict core = .ok cattrs ∧ construct rfields (cattrs ++ acc) = .ok r := by
  cases ha : asdict core with
  | error e => rw [constructOne, ha] at h; simp at h
  | ok cattrs =>
    rw [constructOne, ha] at h
    simp only [okBind] at h
    exact ⟨cattrs, rfl, h⟩

theorem constructFields_lookup (rfields : Rfields) (kwargs : AttrList) :
    ∀ attrs, constructFields rfields kwargs = .ok attrs →
      ∀ k, k ∈ fieldNames rfields → lookupKw attrs k = lookupKw kwargs k := by
  induction rfields using rfieldsInd with
  | h0 =>
    intro attrs h k hk
    simp [fieldNames] at hk
  | h1 n rest ih =>
    intro attrs h k hk
    rw [constructFields] at h
    cases hl : lookupKw kwargs n with
    | none => rw [hl] at h; cases h
    | some v =>
      rw [hl] at h
      obtain ⟨tail, htail, hattrs⟩ := bind_ok_inv _ _ _ h
      simp only [pureExcept, Except.ok.injEq] at hattrs
      subst hattrs
      by_cases hkn : k = n
      · subst hkn
        simp [lookupKw, hl]
      · simp only [fieldNames, List.mem_cons] at hk
        rcases hk with h1 | h2
        · exact absurd h1 hkn
        · have hne : (n == k) = false := by
            simp [Ne.symm hkn]
          simp only [lookupKw, hne, Bool.false_eq_true, if_neg, not_false_iff]
          exact ih tail htail k h2
  | h2 n sub rest ih =>
    intro attrs h k hk
    rw [constructFields] at h
    cases hl : lookupKw kwargs n with
    | none => rw [hl] at h; cases h
    | some v =>
      rw [hl] at h
      obtain ⟨tail, htail, hattrs⟩ := bind_ok_inv _ _ _ h
      simp only [pureExcept, Except.ok.injEq] at hattrs
      subst hattrs
      by_cases hkn : k = n
      · subst hkn
        simp [lookupKw, hl]
      · simp only [fieldNames, List.mem_cons] at hk
        rcases hk with h1 | h2
        · exact absurd h1 hkn
        · have hne : (n == k) = false := by
            simp [Ne.symm hkn]
          simp only [lookupKw, hne, Bool.false_eq_true, if_neg, not_false_iff]
          exact ih tail htail k h2

theorem constructFields_exact (rfields : Rfields) :
    ∀ pre post : AttrList, nodupKeys (pre ++ post) = true →
      fieldNames rfields = post.map Prod.fst →
      constructFields rfields (pre ++ post) = .ok post := by
  induction rfields using rfieldsInd with
  | h0 =>
    intro pre post hnd hnames
    have : post = [] := by
      cases post with
      | nil => rfl
      | cons p rest => simp [fieldNames] at hnames
    subst this
    rfl
  | h1 n rest ih =>
    intro pre post hnd hnames
    cases post with
    | nil => simp [fieldNames] at hnames
    | cons p post2 =>
      obtain ⟨k, v⟩ := p
      simp only [fieldNames, List.map_cons, List.cons.injEq] at hnames
      obtain ⟨hkn, hrest⟩ := hnames
      subst hkn
      have hl : lookupKw (pre ++ (n, v) :: post2) n = some v := by
        apply nodupKeys_append_lookup _ _ _ _ hnd
        simp [lookupKw]
      rw [constructFields, hl]
      have hre : pre ++ (n, v) :: post2 = (pre ++ [(n, v)]) ++ post2 := by
        simp
      rw [hre] at hnd ⊢
      rw [ih (pre ++ [(n, v)]) post2 hnd hrest]
      rfl
  | h2 n sub rest ih =>
    intro pre post hnd hnames
    cases post with
    | nil => simp [fieldNames] at hnames
    | cons p post2 =>
      obtain ⟨k, v⟩ := p
      simp only [fieldNames, List.map_cons, List.cons.injEq] at hnames
      obtain ⟨hkn, hrest⟩ := hnames
      subst hkn
      have hl : lookupKw (pre ++ (n, v) :: post2) n = some v := by
        apply nodupKeys_append_lookup _ _ _ _ hnd
        simp [lookupKw]
      rw [constructFields, hl]
      have hre : pre ++ (n, v) :: post2 = (pre ++ [(n, v)]) ++ post2 := by
        simp
      rw [hre] at hnd ⊢
      rw [ih (pre ++ [(n, v)]) post2 hnd hrest]
      rfl

theorem constructOne_wellFormed (rfields : Rfields) (c : Val)
    (h : wellFormedCore rfields c = true) : constructOne rfields c [] = .ok c := by
  cases c with
  | base n => simp [wellFormedCore] at h
  | dict attrs => simp [wellFormedCore] at h
  | vlist es => simp [wellFormedCore] at h
  | record attrs =>
    simp only [wellFormedCore, Bool.and_eq_true, decide_eq_true_eq] at h
    obtain ⟨⟨hnames, hplain⟩, hnd⟩ := h
    have hcf : constructFields rfields attrs = .ok attrs := by
      have h2 := constructFields_exact rfields [] attrs (by simpa using hnd) hnames.symm
      simpa using h2
    rw [constructOne, asdict]
    rw [asdict_plain_triple.2.2 attrs hplain]
    simp only [okBind, List.append_nil]
    rw [construct, if_pos]
    · rw [hcf]
    · rw [Bool.and_eq_true]
      refine ⟨hnd, List.all_eq_true.mpr ?_⟩
      intro p hp
      apply contains_of_mem
      rw [← hnames]
      exact List.mem_map_of_mem Prod.fst hp

theorem constructAll_ok_inv (rfields : Rfields) :
    ∀ (cores : List Val) (accs : List AttrList) (out : List Val),
      constructAll rfields cores accs = .ok out →
      out.length = min cores.length accs.length ∧
      ∀ (i : Nat) (c : Val) (a : AttrList), cores[i]? = some c → accs[i]? = some a →
        ∃ r, out[i]? = some r ∧ constructOne rfields c a = .ok r := by
  intro cores
  induction cores with
  | nil =>
    intro accs out h
    simp only [constructAll] at h
    cases h
    simp
  | cons c cs ih =>
    intro accs out h
    cases accs with
    | nil =>
      simp only [constructAll] at h
      cases h
      simp
    | cons a accs2 =>
      rw [constructAll] at h
      cases hco : constructOne rfields c a with
      | error e => rw [hco] at h; simp at h
      | ok r =>
        rw [hco] at h
        simp only [okBind] at h
        obtain ⟨rest, hrest, hout⟩ := bind_ok_inv _ _ _ h
        simp only [pureExcept, Except.ok.injEq] at hout
        subst hout
        obtain ⟨hlen, hidx⟩ := ih accs2 rest hrest
        constructor
        · simp only [List.length_cons, hlen]
          omega
        · intro i c2 a2 hc2 ha2
          cases i with
          | zero =>
            simp only [List.getElem?_cons_zero, Option.some.injEq] at hc2 ha2
            subst hc2
            subst ha2
            exact ⟨r, by simp, hco⟩
          | succ n =>
            simp only [List.getElem?_cons_succ] at hc2 ha2 ⊢
            exact hidx n c2 a2 hc2 ha2

theorem constructAll_wellFormed (rfields : Rfields) :
    ∀ cores : List Val, (∀ c ∈ cores, wellFormedCore rfields c = true) →
      constructAll rfields cores (cores.map (fun _ => [])) = .ok cores := by
  intro cores
  induction cores with
  | nil =>
    intro _
    rfl
  | cons c cs ih =>
    intro h
    simp only [List.map_cons]
    rw [constructAll, constructOne_wellFormed rfields c (h c (List.mem_cons_self c cs))]
    rw [okBind, ih (fun c2 hc2 => h c2 (List.mem_cons_of_mem c hc2))]
    rfl

/-! ### Executor inversion lemmas -/

theorem unflattens_length (vs : List Val) :
    ∀ rs ws rest, unflattenVals vs rs = .ok (ws, rest) → ws.length = vs.length := by
  induction vs with
  | nil =>
    intro rs ws rest h
    rw [unflattenVals] at h
    cases h
    rfl
  | cons v vs2 ih =>
    intro rs ws rest h
    rw [unflattenVals] at h
    obtain ⟨⟨v2, rs2⟩, h1, h2⟩ := bind_ok_inv _ _ _ h
    obtain ⟨⟨ws2, rs3⟩, h3, h4⟩ := bind_ok_inv _ _ _ h2
    simp only [pureExcept, Except.ok.injEq, Prod.mk.injEq] at h4
    obtain ⟨h5, h6⟩ := h4
    subst h5
    simp [ih rs2 ws2 rs3 h3]

theorem fetchField_ok_inv (ex : Executor) (q : Query) (pt : Nat) (parents : List Val)
    (vals : List Val) (tree : CallTree) (h : fetchField ex q pt parents = .ok (vals, tree)) :
    ∃ f raw aug trees2 leftover,
      findField ex.fieldFetchers q pt = some f ∧
      f.run q parents = .ok raw ∧
      addFields ex (flattenVals raw) q f.toType = .ok (aug, trees2) ∧
      unflattenVals raw aug = .ok (vals, leftover) ∧
      tree = CallTree.node q pt parents trees2 := by
  cases hf : findField ex.fieldFetchers q pt with
  | none =>
    rw [fetchField] at h
    simp only [hf] at h
    cases h
  | some f =>
    cases hr : f.run q parents with
    | error e =>
      rw [fetchField] at h
      simp only [hf, hr] at h
      cases h
    | ok raw =>
      rw [fetchField] at h
      simp only [hf, hr] at h
      obtain ⟨⟨aug, trees2⟩, h1, h2⟩ := bind_ok_inv _ _ _ h
      obtain ⟨⟨res, leftover⟩, h3, h4⟩ := bind_ok_inv _ _ _ h2
      simp only [pureExcept, Except.ok.injEq, Prod.mk.injEq] at h4
      obtain ⟨h5, h6⟩ := h4
      subst h5
      subst h6
      exact ⟨f, raw, aug, trees2, leftover, rfl, hr, h1, h3, rfl⟩

theorem fetchField_length (ex : Executor) (q : Query) (pt : Nat) (parents : List Val)
    (vals : List Val) (tree : CallTree) (h : fetchField ex q pt parents = .ok (vals, tree)) :
    ∃ f raw, findField ex.fieldFetchers q pt = some f ∧ f.run q parents = .ok raw ∧
      vals.length = raw.length := by
  obtain ⟨f, raw, aug, trees2, leftover, hf, hr, _, hu, _⟩ := fetchField_ok_inv ex q pt parents vals tree h
  exact ⟨f, raw, hf, hr, unflattens_length raw aug vals leftover hu⟩

theorem addLoop_extra_ok_inv (ex : Executor) (cores : List Val) (name : String) (sub : Query)
    (rest : Rfields) (pt : Nat) (accs accs2 : List AttrList) (trees : List CallTree)
    (h : addLoop ex cores (.extraField name sub rest) pt accs = .ok (accs2, trees)) :
    ∃ vals tree trees2, fetchField ex sub pt cores = .ok (vals, tree) ∧
      addLoop ex cores rest pt (zipSetField accs name vals) = .ok (accs2, trees2) ∧
      trees = tree :: trees2 := by
  rw [addLoop_extraField] at h
  cases hff : fetchField ex sub pt cores with
  | error e => rw [hff] at h; simp at h
  | ok p =>
    obtain ⟨vals, tree⟩ := p
    rw [hff] at h
    simp only [okBind] at h
    obtain ⟨⟨accs3, trees2⟩, h2, h3⟩ := bind_ok_inv _ _ _ h
    simp only [pureExcept, Except.ok.injEq, Prod.mk.injEq] at h3
    obtain ⟨h4, h5⟩ := h3
    subst h4
    subst h5
    exact ⟨vals, tree, trees2, rfl, h2, rfl⟩

theorem addLoop_length (ex : Executor) (cores : List Val) (pt : Nat) :
    ∀ fields accs accs2 trees, addLoop ex cores fields pt accs = .ok (accs2, trees) →
      accs2.length = accs.length := by
  intro fields
  induction fields using rfieldsInd with
  | h0 =>
    intro accs accs2 trees h
    rw [addLoop] at h
    cases h
    rfl
  | h1 n rest ih =>
    intro accs accs2 trees h
    rw [addLoop] at h
    exact ih accs accs2 trees h
  | h2 n sub rest ih =>
    intro accs accs2 trees h
    obtain ⟨vals, tree, trees2, hff, h2, htrees⟩ :=
      addLoop_extra_ok_inv ex cores n sub rest pt accs accs2 trees h
    rw [ih (zipSetField accs n vals) accs2 trees2 h2, zipSetField_length]

theorem addLoop_untouched (ex : Executor) (cores : List Val) (pt : Nat) :
    ∀ fields accs accs2 trees, addLoop ex cores fields pt accs = .ok (accs2, trees) →
      ∀ (i : Nat) (k : String), k ∉ extraNames fields →
        accs2[i]?.map (fun a => lookupKw a k) = accs[i]?.map (fun a => lookupKw a k) := by
  intro fields
  induction fields using rfieldsInd with
  | h0 =>
    intro accs accs2 trees h i k hk
    rw [addLoop] at h
    cases h
    rfl
  | h1 n rest ih =>
    intro accs accs2 trees h i k hk
    rw [addLoop] at h
    exact ih accs accs2 trees h i k (by simpa [extraNames, extras] using hk)
  | h2 n sub rest ih =>
    intro accs accs2 trees h i k hk
    obtain ⟨vals, tree, trees2, hff, h2, htrees⟩ :=
      addLoop_extra_ok_inv ex cores n sub rest pt accs accs2 trees h
    simp only [extraNames, extras, List.map_cons, List.mem_cons, not_or] at hk
    obtain ⟨hkn, hk2⟩ := hk
    rw [ih (zipSetField accs n vals) accs2 trees2 h2 i k (by simpa [extraNames] using hk2)]
    rw [zipSetField_get?]
    cases ha : accs[i]? with
    | none => simp
    | some a =>
      cases hv : vals[i]? with
      | none => simp
      | some v => simp [lookupKw_dictSet_other a n k v hkn]

theorem addLoop_align (ex : Executor) (cores : List Val) (pt : Nat) :
    ∀ fields accs accs2 trees, addLoop ex cores fields pt accs = .ok (accs2, trees) →
      List.Nodup (extraNames fields) →
      ∀ name sub, (name, sub) ∈ extras fields →
        ∀ vals tree, fetchField ex sub pt cores = .ok (vals, tree) →
          ∀ (i : Nat) (a2 : AttrList) (v : Val), accs2[i]? = some a2 → vals[i]? = some v →
            lookupKw a2 name = some v := by
  intro fields
  induction fields using rfieldsInd with
  | h0 =>
    intro accs accs2 trees h hnd name sub hmem
    simp [extras] at hmem
  | h1 n rest ih =>
    intro accs accs2 trees h hnd name sub hmem vals tree hff i a2 v ha2 hv
    rw [addLoop] at h
    exact ih accs accs2 trees h (by simpa [extraNames, extras] using hnd)
      name sub (by simpa [extras] using hmem) vals tree hff i a2 v ha2 hv
  | h2 n sub0 rest ih =>
    intro accs accs2 trees h hnd name sub hmem vals tree hff i a2 v ha2 hv
    obtain ⟨vals0, tree0, trees2, hff0, h2, htrees⟩ :=
      addLoop_extra_ok_inv ex cores n sub0 rest pt accs accs2 trees h
    simp only [extraNames, extras, List.map_cons, List.nodup_cons] at hnd
    obtain ⟨hnmem, hnd2⟩ := hnd
    rcases List.mem_cons.mp hmem with hhead | htail
    · have hname : name = n := congrArg Prod.fst hhead
      have hsub : sub = sub0 := congrArg Prod.snd hhead
      subst hname
      subst hsub
      rw [hff0] at hff
      cases hff
      have huntouched := addLoop_untouched ex cores pt rest (zipSetField accs name vals)
        accs2 trees2 h2 i name (by simpa [extraNames] using hnmem)
      rw [ha2, zipSetField_get?] at huntouched
      have hlen : accs2.length = accs.length := by
        rw [addLoop_length ex cores pt rest _ accs2 trees2 h2, zipSetField_length]
      have hilt : i < accs.length := by
        by_contra hge
        rw [List.getElem?_eq_none (by omega)] at ha2
        cases ha2
      cases ha : accs[i]? with
      | none =>
        rw [List.getElem?_eq_getElem hilt] at ha
        cases ha
      | some a =>
        simp only [ha, hv, Option.map_some', Option.some.injEq] at huntouched
        rw [huntouched, lookupKw_dictSet_self]
    · have hcast : (name, sub) ∈ extras rest := htail
      exact ih (zipSetField accs n vals0) accs2 trees2 h2 hnd2 name sub hcast
        vals tree hff i a2 v ha2 hv

theorem fetchField_ok_node (ex : Executor) (q : Query) (pt : Nat) (parents : List Val)
    (vals : List Val) (tree : CallTree) (h : fetchField ex q pt parents = .ok (vals, tree)) :
    ∃ ts, tree = CallTree.node q pt parents ts := by
  obtain ⟨f, raw, aug, trees2, leftover, hf, hr, ha, hu, ht⟩ :=
    fetchField_ok_inv ex q pt parents vals tree h
  exact ⟨trees2, ht⟩

theorem addLoop_trace (ex : Executor) (cores : List Val) (pt : Nat) :
    ∀ fields accs accs2 trees, addLoop ex cores fields pt accs = .ok (accs2, trees) →
      trees.length = (extras fields).length ∧
      ∀ (j : Nat) (name : String) (sub : Query), (extras fields)[j]? = some (name, sub) →
        ∃ ts, trees[j]? = some (CallTree.node sub pt cores ts) := by
  intro fields
  induction fields using rfieldsInd with
  | h0 =>
    intro accs accs2 trees h
    rw [addLoop] at h
    cases h
    exact ⟨rfl, by intro j name sub hj; simp [extras] at hj⟩
  | h1 n rest ih =>
    intro accs accs2 trees h
    rw [addLoop] at h
    simpa [extras] using ih accs accs2 trees h
  | h2 n sub0 rest ih =>
    intro accs accs2 trees h
    obtain ⟨vals, tree, trees2, hff, h2, htrees⟩ :=
      addLoop_extra_ok_inv ex cores n sub0 rest pt accs accs2 trees h
    subst htrees
    obtain ⟨hlen, hidx⟩ := ih (zipSetField accs n vals) accs2 trees2 h2
    constructor
    · simp [extras, hlen]
    · intro j name sub hj
      cases j with
      | zero =>
        simp only [extras, List.getElem?_cons_zero, Option.some.injEq] at hj
        have hsub : sub = sub0 := congrArg Prod.snd hj.symm
        subst hsub
        obtain ⟨ts, hts⟩ := fetchField_ok_node ex sub pt cores vals tree hff
        exact ⟨ts, by simp [hts]⟩
      | succ m =>
        simp only [extras, List.getElem?_cons_succ] at hj
        simpa using hidx m name sub hj

theorem addLoop_firstFail (ex : Executor) (cores : List Val) (pt : Nat) :
    ∀ fields (name : String) (sub : Query) (restE : List (String × Query)),
      extras fields = (name, sub) :: restE →
      findField ex.fieldFetchers sub pt = none →
      ∀ accs, addLoop ex cores fields pt accs = .error (.noFieldFetcher sub pt) := by
  intro fields
  induction fields using rfieldsInd with
  | h0 =>
    intro name sub restE hex
    simp [extras] at hex
  | h1 n rest ih =>
    intro name sub restE hex hnf accs
    rw [addLoop]
    exact ih name sub restE (by simpa [extras] using hex) hnf accs
  | h2 n sub0 rest ih =>
    intro name sub restE hex hnf accs
    simp only [extras, List.cons.injEq] at hex
    have hsub : sub0 = sub := by simpa using congrArg Prod.snd hex.1
    subst hsub
    rw [addLoop_extraField]
    rw [fetchField, hnf]
    rfl

theorem addLoop_noExtras (ex : Executor) (cores : List Val) (pt : Nat) :
    ∀ fields, extras fields = [] →
      ∀ accs, addLoop ex cores fields pt accs = .ok (accs, []) := by
  intro fields
  induction fields using rfieldsInd with
  | h0 =>
    intro _ accs
    rfl
  | h1 n rest ih =>
    intro hex accs
    rw [addLoop]
    exact ih (by simpa [extras] using hex) accs
  | h2 n sub0 rest ih =>
    intro hex
    simp [extras] at hex

theorem addLoop_allOk (ex : Executor) (cores : List Val) (pt : Nat) :
    ∀ fields accs accs2 trees, addLoop ex cores fields pt accs = .ok (accs2, trees) →
      ∀ name sub, (name, sub) ∈ extras fields →
        ∃ vals tree, fetchField ex sub pt cores = .ok (vals, tree) := by
  intro fields
  induction fields using rfieldsInd with
  | h0 =>
    intro accs accs2 trees h name sub hmem
    simp [extras] at hmem
  | h1 n rest ih =>
    intro accs accs2 trees h name sub hmem
    rw [addLoop] at h
    exact ih accs accs2 trees h name sub (by simpa [extras] using hmem)
  | h2 n sub0 rest ih =>
    intro accs accs2 trees h name sub hmem
    obtain ⟨vals, tree, trees2, hff, h2, htrees⟩ :=
      addLoop_extra_ok_inv ex cores n sub0 rest pt accs accs2 trees h
    rcases List.mem_cons.mp hmem with hhead | htail
    · have hsub : sub = sub0 := congrArg Prod.snd hhead
      subst hsub
      exact ⟨vals, tree, hff⟩
    · exact ih (zipSetField accs n vals) accs2 trees2 h2 name sub htail

theorem addFields_ok_inv (ex : Executor) (cores : List Val) (q : Query) (pt : Nat)
    (out : List Val) (trees : List CallTree) (h : addFields ex cores q pt = .ok (out, trees)) :
    ∃ accs2, addLoop ex cores q.rfields pt (cores.map (fun _ => [])) = .ok (accs2, trees) ∧
      constructAll q.rfields cores accs2 = .ok out ∧
      accs2.length = cores.length ∧ out.length = cores.length := by
  cases q with
  | mk v rfields =>
    rw [addFields] at h
    obtain ⟨⟨accs2, trees2⟩, h1, h2⟩ := bind_ok_inv _ _ _ h
    obtain ⟨out2, h3, h4⟩ := bind_ok_inv _ _ _ h2
    simp only [pureExcept, Except.ok.injEq, Prod.mk.injEq] at h4
    obtain ⟨h5, h6⟩ := h4
    subst h5
    subst h6
    have hacc : accs2.length = cores.length := by
      rw [addLoop_length ex cores pt rfields _ accs2 trees2 h1]
      simp
    refine ⟨accs2, by simpa [Query.rfields] using h1, by simpa [Query.rfields] using h3, hacc, ?_⟩
    have := (constructAll_ok_inv rfields cores accs2 out2 h3).1
    rw [this, hacc]
    simp

theorem fetchCore_ok_inv (ex : Executor) (q : Query) (ct : Nat) (cores : List Val)
    (h : fetchCore ex q = .ok (ct, cores)) :
    ∃ f, findRoot ex.rootFetchers q = some f ∧ f.toType = ct ∧ f.run q = .ok cores := by
  cases hf : findRoot ex.rootFetchers q with
  | none =>
    rw [fetchCore] at h
    simp only [hf] at h
    cases h
  | some f =>
    cases hr : f.run q with
    | error e =>
      rw [fetchCore] at h
      simp only [hf, hr] at h
      cases h
    | ok cores2 =>
      rw [fetchCore] at h
      simp only [hf, hr, Except.ok.injEq, Prod.mk.injEq] at h
      exact ⟨f, rfl, h.1, by rw [hr, h.2]⟩

theorem fetch_ok_inv (ex : Executor) (q : Query) (out : List Val) (trees : List CallTree)
    (h : fetch ex q = .ok (out, trees)) :
    ∃ f cores, findRoot ex.rootFetchers q = some f ∧ f.run q = .ok cores ∧
      addFields ex cores q f.toType = .ok (out, trees) := by
  rw [fetch] at h
  obtain ⟨⟨ct, cores⟩, h1, h2⟩ := bind_ok_inv _ _ _ h
  obtain ⟨f, hf, hct, hrun⟩ := fetchCore_ok_inv ex q ct cores h1
  exact ⟨f, cores, hf, hrun, by rw [hct]; exact h2⟩

theorem fetch_rootLookupFail (ex : Executor) (q : Query)
    (h : findRoot ex.rootFetchers q = none) : fetch ex q = .error (.noRootFetcher q) := by
  rw [fetch, fetchCore]
  simp only [h]
  rfl

theorem fetch_rootRunError (ex : Executor) (q : Query) (f : RootFetcher) (e : Fault)
    (hf : findRoot ex.rootFetchers q = some f) (hr : f.run q = .error e) :
    fetch ex q = .error e := by
  rw [fetch, fetchCore]
  simp only [hf, hr]
  rfl

theorem fetchField_lookupFail (ex : Executor) (q : Query) (pt : Nat) (parents : List Val)
    (h : findField ex.fieldFetchers q pt = none) :
    fetchField ex q pt parents = .error (.noFieldFetcher q pt) := by
  rw [fetchField, h]

theorem fetchField_runError (ex : Executor) (q : Query) (pt : Nat) (parents : List Val)
    (f : FieldFetcher) (e : Fault) (hf : findField ex.fieldFetchers q pt = some f)
    (hr : f.run q parents = .error e) : fetchField ex q pt parents = .error e := by
  rw [fetchField]
  simp only [hf, hr]

/-! ### Unflatten on replacement sequences -/

theorem shapeOf_leafLike (v : Val) (h : leafLike v = true) : shapeOf v = .leaf := by
  cases v with
  | base n => simp [shapeOf]
  | record attrs => simp [shapeOf]
  | dict attrs => simp [shapeOf]
  | vlist es => simp [leafLike] at h

theorem unflatten_replace_pair :
    (∀ v : Val, ∀ R : List Val, (flattenVal v).length ≤ R.length →
      ∃ w, unflattenVal v R = .ok (w, R.drop (flattenVal v).length) ∧
        ((∀ r ∈ R.take (flattenVal v).length, leafLike r = true) →
          shapeOf w = shapeOf v ∧ flattenVal w = R.take (flattenVal v).length)) ∧
    (∀ vs : List Val, ∀ R : List Val, (flattenVals vs).length ≤ R.length →
      ∃ ws, unflattenVals vs R = .ok (ws, R.drop (flattenVals vs).length) ∧
        ((∀ r ∈ R.take (flattenVals vs).length, leafLike r = true) →
          shapesOf ws = shapesOf vs ∧ flattenVals ws = R.take (flattenVals vs).length)) := by
  have hleaf : ∀ v : Val, leafLike v = true → ∀ R : List Val,
      (flattenVal v).length ≤ R.length →
      ∃ w, unflattenVal v R = .ok (w, R.drop (flattenVal v).length) ∧
        ((∀ r ∈ R.take (flattenVal v).length, leafLike r = true) →
          shapeOf w = shapeOf v ∧ flattenVal w = R.take (flattenVal v).length) := by
    intro v hv R hlen
    rw [flattenVal_leaf v hv] at hlen ⊢
    cases R with
    | nil => simp at hlen
    | cons r rs =>
      refine ⟨r, ?_, ?_⟩
      · cases v <;> simp [unflattenVal, leafLike] at hv ⊢
      · intro hlf
        have hr : leafLike r = true := hlf r (by simp)
        rw [shapeOf_leafLike v hv, shapeOf_leafLike r hr, flattenVal_leaf r hr]
        simp
  have h := valInd3
    (fun v => ∀ R : List Val, (flattenVal v).length ≤ R.length →
      ∃ w, unflattenVal v R = .ok (w, R.drop (flattenVal v).length) ∧
        ((∀ r ∈ R.take (flattenVal v).length, leafLike r = true) →
          shapeOf w = shapeOf v ∧ flattenVal w = R.take (flattenVal v).length))
    (fun vs => ∀ R : List Val, (flattenVals vs).length ≤ R.length →
      ∃ ws, unflattenVals vs R = .ok (ws, R.drop (flattenVals vs).length) ∧
        ((∀ r ∈ R.take (flattenVals vs).length, leafLike r = true) →
          shapesOf ws = shapesOf vs ∧ flattenVals ws = R.take (flattenVals vs).length))
    (fun _ => True)
    (fun n => hleaf (.base n) rfl)
    (fun attrs _ => hleaf (.record attrs) rfl)
    (fun attrs _ => hleaf (.dict attrs) rfl)
    (fun es ih => by
      intro R hlen
      rw [show flattenVal (.vlist es) = flattenVals es from by rw [flattenVal]] at hlen ⊢
      obtain ⟨ws, hu, hlf⟩ := ih R hlen
      refine ⟨.vlist ws, ?_, ?_⟩
      · rw [unflattenVal, hu]
        rfl
      · intro hleaves
        obtain ⟨hsh, hfl⟩ := hlf hleaves
        constructor
        · rw [shapeOf, shapeOf, hsh]
        · rw [show flattenVal (.vlist ws) = flattenVals ws from by rw [flattenVal], hfl]
      )
    (fun R hlen => ⟨[], by simp [unflattenVals, flattenVals], by
      intro _
      simp [flattenVals, shapesOf]⟩)
    (fun v vs ihv ihvs => by
      intro R hlen
      have hsplit : flattenVals (v :: vs) = flattenVal v ++ flattenVals vs := by
        rw [flattenVals]
      rw [hsplit, List.length_append] at hlen ⊢
      obtain ⟨w, huv, hlfv⟩ := ihv R (by omega)
      obtain ⟨ws, huvs, hlfvs⟩ := ihvs (R.drop (flattenVal v).length) (by
        rw [List.length_drop]
        omega)
      refine ⟨w :: ws, ?_, ?_⟩
      · simp only [unflattenVals, huv, okBind, huvs, pureExcept]
        rw [List.drop_drop]
      · intro hleaves
        have htk : R.take ((flattenVal v).length + (flattenVals vs).length) =
            R.take (flattenVal v).length ++
              (R.drop (flattenVal v).length).take (flattenVals vs).length := by
          rw [List.take_add]
        have hlv : ∀ r ∈ R.take (flattenVal v).length, leafLike r = true := by
          intro r hr
          refine hleaves r ?_
          rw [htk]
          exact List.mem_append_left _ hr
        have hlvs : ∀ r ∈ (R.drop (flattenVal v).length).take (flattenVals vs).length,
            leafLike r = true := by
          intro r hr
          refine hleaves r ?_
          rw [htk]
          exact List.mem_append_right _ hr
        obtain ⟨hshv, hflv⟩ := hlfv hlv
        obtain ⟨hshvs, hflvs⟩ := hlfvs hlvs
        constructor
        · rw [shapesOf, shapesOf, hshv, hshvs]
        · rw [show flattenVals (w :: ws) = flattenVal w ++ flattenVals ws from by
            rw [flattenVals]]
          rw [hflv, hflvs, htk]
      )
    trivial
    (fun _ _ _ _ _ => trivial)
  exact ⟨h.1, h.2.1⟩

/-- The code's `unflatten` consults only the shape of its first argument: it
computes exactly the spec's shape-driven reconstruction. -/
theorem unflatten_shapeOnly :
    (∀ (v : Val) (R : List Val), exceptOpt (unflattenVal v R) = unflattenShape (shapeOf v) R) ∧
    (∀ (vs : List Val) (R : List Val),
      exceptOpt (unflattenVals vs R) = unflattenShapes (shapesOf vs) R) := by
  have hleaf : ∀ v : Val, leafLike v = true → ∀ R : List Val,
      exceptOpt (unflattenVal v R) = unflattenShape (shapeOf v) R := by
    intro v hv R
    rw [shapeOf_leafLike v hv]
    cases R with
    | nil => cases v <;> simp [unflattenVal, unflattenShape, exceptOpt, leafLike] at hv ⊢
    | cons r rs => cases v <;> simp [unflattenVal, unflattenShape, exceptOpt, leafLike] at hv ⊢
  have h := valInd3
    (fun v => ∀ R : List Val, exceptOpt (unflattenVal v R) = unflattenShape (shapeOf v) R)
    (fun vs => ∀ R : List Val,
      exceptOpt (unflattenVals vs R) = unflattenShapes (shapesOf vs) R)
    (fun _ => True)
    (fun n => hleaf (.base n) rfl)
    (fun attrs _ => hleaf (.record attrs) rfl)
    (fun attrs _ => hleaf (.dict attrs) rfl)
    (fun es ih => by
      intro R
      rw [shapeOf]
      cases hu : unflattenVals es R with
      | error e =>
        have h2 := ih R
        rw [hu] at h2
        rw [unflattenVal, hu]
        rw [unflattenShape, ← h2]
        rfl
      | ok p =>
        obtain ⟨es2, rs2⟩ := p
        have h2 := ih R
        rw [hu] at h2
        rw [unflattenVal, hu]
        rw [unflattenShape, ← h2]
        rfl
      )
    (fun R => by simp [unflattenVals, shapesOf, unflattenShapes, exceptOpt])
    (fun v vs ihv ihvs => by
      intro R
      rw [shapesOf]
      cases hu : unflattenVal v R with
      | error e =>
        have h2 := ihv R
        rw [hu] at h2
        rw [unflattenVals, hu]
        rw [unflattenShapes, ← h2]
        rfl
      | ok p =>
        obtain ⟨v2, rs2⟩ := p
        have h2 : unflattenShape (shapeOf v) R = some (v2, rs2) := by
          have h4 := ihv R
          rw [hu] at h4
          rw [← h4]
          rfl
        cases hu2 : unflattenVals vs rs2 with
        | error e =>
          have h3 : unflattenShapes (shapesOf vs) rs2 = none := by
            have h4 := ihvs rs2
            rw [hu2] at h4
            rw [← h4]
            rfl
          simp [unflattenVals, hu, hu2, unflattenShapes, h2, h3, exceptOpt]
        | ok p2 =>
          obtain ⟨ws, rs3⟩ := p2
          have h3 : unflattenShapes (shapesOf vs) rs2 = some (ws, rs3) := by
            have h4 := ihvs rs2
            rw [hu2] at h4
            rw [← h4]
            rfl
          simp [unflattenVals, hu, hu2, unflattenShapes, h2, h3, exceptOpt]
      )
    trivial
    (fun _ _ _ _ _ => trivial)
  exact ⟨h.1, h.2.1⟩

/-! ### Concrete scenario evaluation -/

theorem scenario_comments_eval :
    fetchField scenarioEx commentQuery 10 [post 1, post 2, post 3] =
      .ok ([.vlist [], .vlist [commentOut 1, commentOut 2], .vlist [commentOut 3]],
        CallTree.node commentQuery 10 [post 1, post 2, post 3]
          [CallTree.node userQuery 11 [comment 1, comment 2, comment 3] []]) := by
  simp [fetchField, findField, matchesField, scenarioEx, commentFetcher, authorFetcher,
    commentQuery, userQuery, Query.variant, addFields, addLoop, constructAll, constructOne,
    asdict, author, comment, post, commentOut, asdictAttrs, asdictVal, construct,
    constructFields, lookupKw, nodupKeys, fieldNames, flattenVals, flattenVal,
    unflattenVals, unflattenVal, zipSetField, dictSet, Query.rfields]

theorem scenario_fetchCore_eval :
    fetchCore scenarioEx postQuery = .ok (10, [post 1, post 2, post 3]) := by
  simp [fetchCore, findRoot, matchesRoot, scenarioEx, postFetcher, postQuery, Query.variant]

theorem scenario_addFields_eval :
    addFields scenarioEx [post 1, post 2, post 3] postQuery 10 = .ok (scenarioOut, scenarioTrees) := by
  rw [show postQuery = .mk 0 (.coreField "title" (.extraField "comments" commentQuery .nil))
    from rfl]
  rw [addFields]
  rw [addLoop, addLoop_extraField, scenario_comments_eval]
  simp [addLoop, zipSetField, dictSet, constructAll, constructOne, asdict, post, postOut,
    commentOut, scenarioOut, scenarioTrees, asdictAttrs, asdictVal, construct,
    constructFields, lookupKw, nodupKeys, fieldNames, commentQuery]

theorem scenario_fetch_eval :
    fetch scenarioEx postQuery = .ok (scenarioOut, scenarioTrees) := by
  rw [fetch, scenario_fetchCore_eval, okBind]
  exact scenario_addFields_eval

/-! ### Claims -/

/-- Claim C1: for every nested-list structure V, unflattening the flattened
leaf sequence of V against V's shape reconstructs V exactly (the code's
`unflatten` closes over V itself, and provably consults only V's shape:
conjunct 2 relates it to the spec's shape-descriptor reading).  For any
replacement sequence R with the same leaf count as V, unflattening R against
V's shape consumes R entirely and succeeds; when R's members are leaves, the
result has exactly V's nesting with the i-th leaf position holding R's i-th
element (its leaf sequence is R itself). -/
theorem claim_C1_flatten_unflatten_round_trip :
    (∀ v : Val, unflattenVal v (flattenVal v) = .ok (v, [])) ∧
    (∀ (v : Val) (R : List Val), exceptOpt (unflattenVal v R) = unflattenShape (shapeOf v) R) ∧
    (∀ (v : Val) (R : List Val), R.length = (flattenVal v).length →
      ∃ w, unflattenVal v R = .ok (w, []) ∧
        unflattenShape (shapeOf v) R = some (w, []) ∧
        ((∀ r ∈ R, leafLike r = true) → shapeOf w = shapeOf v ∧ flattenVal w = R)) := by
  refine ⟨?_, unflatten_shapeOnly.1, ?_⟩
  · intro v
    have h := unflatten_flatten_pair.1 v []
    simpa using h
  · intro v R hlen
    have hdrop : R.drop (flattenVal v).length = [] := by
      rw [← hlen, List.drop_length]
    have htake : R.take (flattenVal v).length = R := by
      rw [← hlen, List.take_length]
    obtain ⟨w, hu, hlf⟩ := unflatten_replace_pair.1 v R (by omega)
    rw [hdrop] at hu
    rw [htake] at hlf
    refine ⟨w, hu, ?_, hlf⟩
    have h2 := unflatten_shapeOnly.1 v R
    rw [hu] at h2
    rw [← h2]
    rfl

/-- Witness for C1 at a concrete structure and replacement sequence. -/
theorem claim_C1_witness :
    roundTripSeq.length = (flattenVal roundTripVal).length ∧
    ∃ w, unflattenVal roundTripVal roundTripSeq = .ok (w, []) ∧
      unflattenShape (shapeOf roundTripVal) roundTripSeq = some (w, []) ∧
      ((∀ r ∈ roundTripSeq, leafLike r = true) →
        shapeOf w = shapeOf roundTripVal ∧ flattenVal w = roundTripSeq) := by
  have hlen : roundTripSeq.length = (flattenVal roundTripVal).length := by
    simp [roundTripSeq, roundTripVal, flattenVal, flattenVals]
  exact ⟨hlen, claim_C1_flatten_unflatten_round_trip.2.2 roundTripVal roundTripSeq hlen⟩

/-- Claim C6: root and field fetcher lookup scan the registered lists in
registration order and return the first match; a later registration matching
the same query variant (and, for field fetchers, parent type) is never
selected, so appending further registrations cannot change an existing
result. -/
theorem claim_C6_first_match_lookup :
    (∀ (fs : List RootFetcher) (q : Query) (f : RootFetcher), findRoot fs q = some f →
      matchesRoot q f = true ∧ ∃ i, fs.get? i = some f ∧
        ∀ j, j < i → ∀ g, fs.get? j = some g → matchesRoot q g = false) ∧
    (∀ (fs rest : List RootFetcher) (q : Query) (f : RootFetcher),
      findRoot fs q = some f → findRoot (fs ++ rest) q = some f) ∧
    (∀ (fs : List FieldFetcher) (q : Query) (pt : Nat) (f : FieldFetcher),
      findField fs q pt = some f →
      matchesField q pt f = true ∧ ∃ i, fs.get? i = some f ∧
        ∀ j, j < i → ∀ g, fs.get? j = some g → matchesField q pt g = false) ∧
    (∀ (fs rest : List FieldFetcher) (q : Query) (pt : Nat) (f : FieldFetcher),
      findField fs q pt = some f → findField (fs ++ rest) q pt = some f) :=
  ⟨findRoot_first, findRoot_append, findField_first, findField_append⟩

/-- Witness for C6: with a duplicate later registration for the same
variant, lookup still returns the first one, and appending the duplicate
does not change the result. -/
theorem claim_C6_witness :
    (matchesRoot simpleQuery simpleRoot = true ∧ ∃ i, [simpleRoot].get? i = some simpleRoot ∧
      ∀ j, j < i → ∀ g, [simpleRoot].get? j = some g → matchesRoot simpleQuery g = false) ∧
    findRoot ([simpleRoot] ++ [shadowRoot]) simpleQuery = some simpleRoot := by
  have h : findRoot [simpleRoot] simpleQuery = some simpleRoot := by
    simp [findRoot, matchesRoot, simpleRoot, simpleQuery, Query.variant]
  exact ⟨claim_C6_first_match_lookup.1 [simpleRoot] simpleQuery simpleRoot h,
    claim_C6_first_match_lookup.2.1 [simpleRoot] [shadowRoot] simpleQuery simpleRoot h⟩

/-- Claim C7: fetcher lookup fails exactly when no registration matches; a
failed root lookup makes `fetch` raise the error carrying the query, a
failed field lookup makes the field resolution raise the error carrying the
query and the parent type, and no output is produced.  There is no fallback
or wildcard matching. -/
theorem claim_C7_lookup_failure :
    (∀ (fs : List RootFetcher) (q : Query),
      findRoot fs q = none ↔ ∀ g ∈ fs, matchesRoot q g = false) ∧
    (∀ (ex : Executor) (q : Query), findRoot ex.rootFetchers q = none →
      fetch ex q = .error (.noRootFetcher q)) ∧
    (∀ (fs : List FieldFetcher) (q : Query) (pt : Nat),
      findField fs q pt = none ↔ ∀ g ∈ fs, matchesField q pt g = false) ∧
    (∀ (ex : Executor) (q : Query) (pt : Nat) (parents : List Val),
      findField ex.fieldFetchers q pt = none →
      fetchField ex q pt parents = .error (.noFieldFetcher q pt)) :=
  ⟨findRoot_none_iff, fetch_rootLookupFail, findField_none_iff, fetchField_lookupFail⟩

/-- Witness for C7: fetching against the empty registry fails with the
error carrying the query, and the field-level lookup fails with the error
carrying the query and parent type. -/
theorem claim_C7_witness :
    fetch emptyEx simpleQuery = .error (.noRootFetcher simpleQuery) ∧
    fetchField emptyEx userQuery 11 [] = .error (.noFieldFetcher userQuery 11) := by
  constructor
  · exact claim_C7_lookup_failure.2.1 emptyEx simpleQuery
      ((findRoot_none_iff [] simpleQuery).mpr (by simp))
  · exact claim_C7_lookup_failure.2.2.2 emptyEx userQuery 11 []
      ((findField_none_iff [] userQuery 11).mpr (by simp))

/-- Claim C8: every failure aborts the whole fetch with no partial output.
A failed root lookup or failing root fetcher makes `fetch` return exactly
that error; a failed field lookup or failing field fetcher makes the field
resolution return exactly that error; and a successful `fetch` (or field
resolution) certifies that the root lookup and run and every declared
field's resolution at every nesting level succeeded, so no partial composed
output ever accompanies a failure, with no retry and no fallback fetcher
consulted. -/
theorem claim_C8_immediate_abort :
    (∀ (ex : Executor) (q : Query), findRoot ex.rootFetchers q = none →
      fetch ex q = .error (.noRootFetcher q)) ∧
    (∀ (ex : Executor) (q : Query) (f : RootFetcher) (e : Fault),
      findRoot ex.rootFetchers q = some f → f.run q = .error e → fetch ex q = .error e) ∧
    (∀ (ex : Executor) (q : Query) (pt : Nat) (parents : List Val) (f : FieldFetcher) (e : Fault),
      findField ex.fieldFetchers q pt = some f → f.run q parents = .error e →
      fetchField ex q pt parents = .error e) ∧
    (∀ (ex : Executor) (q : Query) (out : List Val) (trees : List CallTree),
      fetch ex q = .ok (out, trees) →
      ∃ f cores, findRoot ex.rootFetchers q = some f ∧ f.run q = .ok cores ∧
        ∀ name sub, (name, sub) ∈ extras q.rfields →
          ∃ vals tree, fetchField ex sub f.toType cores = .ok (vals, tree)) ∧
    (∀ (ex : Executor) (q : Query) (pt : Nat) (parents vals : List Val) (tree : CallTree),
      fetchField ex q pt parents = .ok (vals, tree) →
      ∃ f raw aug trees2, findField ex.fieldFetchers q pt = some f ∧
        f.run q parents = .ok raw ∧
        addFields ex (flattenVals raw) q f.toType = .ok (aug, trees2)) := by
  refine ⟨fetch_rootLookupFail, fetch_rootRunError, fetchField_runError, ?_, ?_⟩
  · intro ex q out trees h
    obtain ⟨f, cores, hf, hr, ha⟩ := fetch_ok_inv ex q out trees h
    obtain ⟨accs2, hloop, hca, hlen1, hlen2⟩ := addFields_ok_inv ex cores q f.toType out trees ha
    exact ⟨f, cores, hf, hr, fun name sub hmem =>
      addLoop_allOk ex cores f.toType q.rfields _ accs2 trees hloop name sub hmem⟩
  · intro ex q pt parents vals tree h
    obtain ⟨f, raw, aug, trees2, leftover, hf, hr, ha, hu, ht⟩ :=
      fetchField_ok_inv ex q pt parents vals tree h
    exact ⟨f, raw, aug, trees2, hf, hr, ha⟩

/-- Witness for C8: the failing root fetcher's error is returned verbatim by
`fetch`. -/
theorem claim_C8_witness :
    fetch failEx (.mk 0 .nil) = .error (.fetcherFailure 7) := by
  refine claim_C8_immediate_abort.2.1 failEx (.mk 0 .nil) failingRoot (.fetcherFailure 7) ?_ ?_
  · simp [findRoot, matchesRoot, failEx, failingRoot, Query.variant]
  · rfl

/-- Claim C9: field resolution happens even for an empty parent batch: with
zero core records, a declared field's fetcher is still looked up (so a
missing registration still raises the lookup error rather than returning an
empty result), and when registrations exist, each declared field is still
fetched exactly once with the empty parents list. -/
theorem claim_C9_empty_batch_resolution :
    (∀ (ex : Executor) (q : Query) (f : RootFetcher) (name : String) (sub : Query)
      (restE : List (String × Query)),
      findRoot ex.rootFetchers q = some f → f.run q = .ok [] →
      extras q.rfields = (name, sub) :: restE →
      findField ex.fieldFetchers sub f.toType = none →
      fetch ex q = .error (.noFieldFetcher sub f.toType)) ∧
    (∀ (ex : Executor) (q : Query) (pt : Nat) (out : List Val) (trees : List CallTree),
      addFields ex [] q pt = .ok (out, trees) →
      trees.length = (extras q.rfields).length ∧
      ∀ (j : Nat) (name : String) (sub : Query), (extras q.rfields)[j]? = some (name, sub) →
        ∃ ts, trees[j]? = some (CallTree.node sub pt [] ts)) := by
  constructor
  · intro ex q f name sub restE hf hr hex hnf
    rw [fetch, fetchCore]
    simp only [hf, hr, okBind]
    cases q with
    | mk v rfields =>
      rw [addFields]
      rw [addLoop_firstFail ex [] f.toType rfields name sub restE
        (by simpa [Query.rfields] using hex) hnf]
      rfl
  · intro ex q pt out trees h
    obtain ⟨accs2, hloop, hca, hlen1, hlen2⟩ := addFields_ok_inv ex [] q pt out trees h
    exact addLoop_trace ex [] pt q.rfields _ accs2 trees hloop

/-- Witness for C9: fetching posts with an empty result set and no comment
fetcher registered still fails with the field-lookup error instead of
returning an empty list. -/
theorem claim_C9_witness :
    fetch orphanEx postQuery = .error (.noFieldFetcher commentQuery 10) := by
  refine claim_C9_empty_batch_resolution.1 orphanEx postQuery emptyRoot
    "comments" commentQuery [] ?_ ?_ ?_ ?_
  · simp [findRoot, matchesRoot, orphanEx, emptyRoot, postQuery, Query.variant]
  · rfl
  · simp [postQuery, Query.rfields, extras]
  · rfl

/-- Claim C3: at any resolution level with a nonempty parent batch, each
declared extra field is resolved by exactly one field-fetcher invocation
(one trace node per declared field), and that single invocation receives the
full batch of all N parents. -/
theorem claim_C3_one_batched_call_per_field (ex : Executor) (cores : List Val) (q : Query)
    (pt : Nat) (out : List Val) (trees : List CallTree)
    (_hN : 0 < cores.length)
    (h : addFields ex cores q pt = .ok (out, trees)) :
    trees.length = (extras q.rfields).length ∧
    ∀ (j : Nat) (name : String) (sub : Query), (extras q.rfields)[j]? = some (name, sub) →
      ∃ ts, trees[j]? = some (CallTree.node sub pt cores ts) := by
  obtain ⟨accs2, hloop, hca, hlen1, hlen2⟩ := addFields_ok_inv ex cores q pt out trees h
  exact addLoop_trace ex cores pt q.rfields _ accs2 trees hloop

/-- Witness for C3 on the concrete scenario: the three posts produce exactly
one comments-fetch invocation carrying the full batch. -/
theorem claim_C3_witness :
    scenarioTrees.length = (extras postQuery.rfields).length ∧
    ∃ ts, scenarioTrees[0]? =
      some (CallTree.node commentQuery 10 [post 1, post 2, post 3] ts) := by
  have h := claim_C3_one_batched_call_per_field scenarioEx [post 1, post 2, post 3] postQuery
    10 scenarioOut scenarioTrees (by simp) scenario_addFields_eval
  exact ⟨h.1, h.2 0 "comments" commentQuery (by simp [postQuery, Query.rfields, extras])⟩

/-- Claim C5: for a query whose result type declares no extra fields, with
core records shaped as the result type demands, `fetch` returns exactly the
root fetcher's records, unmodified and in the same order, performing no
field fetches. -/
theorem claim_C5_identity_passthrough (ex : Executor) (q : Query) (f : RootFetcher)
    (cores : List Val)
    (h1 : findRoot ex.rootFetchers q = some f) (h2 : f.run q = .ok cores)
    (h3 : extras q.rfields = [])
    (h4 : ∀ c ∈ cores, wellFormedCore q.rfields c = true) :
    fetch ex q = .ok (cores, []) := by
  rw [fetch, fetchCore]
  simp only [h1, h2, okBind]
  cases q with
  | mk v rfields =>
    simp only [Query.rfields] at h3 h4
    rw [addFields]
    rw [addLoop_noExtras ex cores f.toType rfields h3]
    simp only [okBind, constructAll_wellFormed rfields cores h4, pureExcept]

/-- Witness for C5: a root fetcher's two records pass through unchanged. -/
theorem claim_C5_witness :
    fetch simpleEx simpleQuery = .ok ([.record [("x", .base 1)], .record [("x", .base 2)]], []) := by
  refine claim_C5_identity_passthrough simpleEx simpleQuery simpleRoot
    [.record [("x", .base 1)], .record [("x", .base 2)]] ?_ ?_ ?_ ?_
  · simp [findRoot, matchesRoot, simpleEx, simpleRoot, simpleQuery, Query.variant]
  · rfl
  · simp [simpleQuery, Query.rfields, extras]
  · intro c hc
    rcases List.mem_cons.mp hc with h | h
    · subst h
      simp [wellFormedCore, simpleQuery, Query.rfields, fieldNames, isPlainAttrs, isPlain,
        nodupKeys]
    · simp only [List.mem_singleton] at h
      subst h
      simp [wellFormedCore, simpleQuery, Query.rfields, fieldNames, isPlainAttrs, isPlain,
        nodupKeys]

/-- Claim C2: whenever a fetch succeeds, the composed output has exactly one
record per core record (index-aligned to the root fetcher's order), and for
each declared extra field whose resolution returned a sequence of the same
length as the core batch, the field value stored on the i-th output record
is exactly the i-th element of that field's resolved sequence. -/
theorem claim_C2_order_preserving_alignment (ex : Executor) (q : Query) (f : RootFetcher)
    (cores out : List Val) (trees : List CallTree)
    (h1 : findRoot ex.rootFetchers q = some f) (h2 : f.run q = .ok cores)
    (h3 : fetch ex q = .ok (out, trees))
    (h4 : List.Nodup (fieldNames q.rfields)) :
    out.length = cores.length ∧
    ∀ name sub, (name, sub) ∈ extras q.rfields →
      ∀ vals tree, fetchField ex sub f.toType cores = .ok (vals, tree) →
        vals.length = cores.length →
        ∀ (i : Nat) (v r : Val), vals[i]? = some v → out[i]? = some r →
          attrLookup r name = some v := by
  obtain ⟨f2, cores2, hf2, hr2, ha⟩ := fetch_ok_inv ex q out trees h3
  rw [h1] at hf2
  cases hf2
  rw [h2] at hr2
  cases hr2
  obtain ⟨accs2, hloop, hca, hlen1, hlen2⟩ := addFields_ok_inv ex cores q f.toType out trees ha
  refine ⟨hlen2, ?_⟩
  intro name sub hmem vals tree hff hvlen i v r hv hr
  have hilt : i < cores.length := by
    have h5 : i < vals.length := by
      by_contra hge
      rw [List.getElem?_eq_none (by omega)] at hv
      cases hv
    omega
  have ha2 : ∃ a2, accs2[i]? = some a2 := by
    refine ⟨accs2[i], List.getElem?_eq_getElem (by omega)⟩
  obtain ⟨a2, ha2⟩ := ha2
  have hnd : List.Nodup (extraNames q.rfields) :=
    (extraNames_sublist q.rfields).nodup h4
  have hlook : lookupKw a2 name = some v :=
    addLoop_align ex cores f.toType q.rfields _ accs2 trees hloop hnd
      name sub hmem vals tree hff i a2 v ha2 hv
  have hc : ∃ c, cores[i]? = some c := ⟨cores[i], List.getElem?_eq_getElem hilt⟩
  obtain ⟨c, hc⟩ := hc
  obtain ⟨r2, hr2, hco⟩ := (constructAll_ok_inv q.rfields cores accs2 out hca).2 i c a2 hc ha2
  rw [hr] at hr2
  cases hr2
  obtain ⟨cattrs, hasd, hcon⟩ := constructOne_ok_inv q.rfields c a2 r hco
  obtain ⟨hndk, hkeys, attrs2, hcf, hrec⟩ := construct_ok_inv q.rfields (cattrs ++ a2) r hcon
  subst hrec
  rw [attrLookup]
  rw [constructFields_lookup q.rfields (cattrs ++ a2) attrs2 hcf name
    (extras_name_fieldNames q.rfields name sub hmem)]
  exact nodupKeys_append_lookup cattrs a2 name v hndk hlook

/-- Witness for C2 on the concrete scenario: the output is index-aligned
with the three posts, and the second output record carries the second
element of the comments fetch. -/
theorem claim_C2_witness :
    scenarioOut.length = [post 1, post 2, post 3].length ∧
    attrLookup (postOut 2 [commentOut 1, commentOut 2]) "comments" =
      some (.vlist [commentOut 1, commentOut 2]) := by
  have h := claim_C2_order_preserving_alignment scenarioEx postQuery postFetcher
    [post 1, post 2, post 3] scenarioOut scenarioTrees
    (by simp [findRoot, matchesRoot, scenarioEx, postFetcher, postQuery, Query.variant])
    rfl
    scenario_fetch_eval
    (by simp [postQuery, Query.rfields, fieldNames])
  refine ⟨h.1, ?_⟩
  have h2 := h.2 "comments" commentQuery (by simp [postQuery, Query.rfields, extras])
    [.vlist [], .vlist [commentOut 1, commentOut 2], .vlist [commentOut 3]]
    (CallTree.node commentQuery 10 [post 1, post 2, post 3]
      [CallTree.node userQuery 11 [comment 1, comment 2, comment 3] []])
    scenario_comments_eval
    (by simp)
    1 (.vlist [commentOut 1, commentOut 2]) (postOut 2 [commentOut 1, commentOut 2])
    (by simp)
    (by simp [scenarioOut])
  exact h2

/-- Claim C10: when the core records' attribute values are plain, each
composed output record agrees with its corresponding core record on every
core attribute: field resolution only adds the declared extra fields and
never changes a core attribute's value. -/
theorem claim_C10_core_attributes_preserved (ex : Executor) (q : Query) (f : RootFetcher)
    (cores out : List Val) (trees : List CallTree)
    (h1 : findRoot ex.rootFetchers q = some f) (h2 : f.run q = .ok cores)
    (h3 : fetch ex q = .ok (out, trees))
    (h4 : ∀ c ∈ cores, plainRecord c = true) :
    ∀ (i : Nat) (c r : Val) (name : String) (v : Val),
      cores[i]? = some c → out[i]? = some r →
      attrLookup c name = some v → attrLookup r name = some v := by
  obtain ⟨f2, cores2, hf2, hr2, ha⟩ := fetch_ok_inv ex q out trees h3
  rw [h1] at hf2
  cases hf2
  rw [h2] at hr2
  cases hr2
  obtain ⟨accs2, hloop, hca, hlen1, hlen2⟩ := addFields_ok_inv ex cores q f.toType out trees ha
  intro i c r name v hc hr hattr
  have hilt : i < cores.length := by
    by_contra hge
    rw [List.getElem?_eq_none (by omega)] at hc
    cases hc
  have ha2 : ∃ a2, accs2[i]? = some a2 := ⟨accs2[i], List.getElem?_eq_getElem (by omega)⟩
  obtain ⟨a2, ha2⟩ := ha2
  obtain ⟨r2, hr2b, hco⟩ := (constructAll_ok_inv q.rfields cores accs2 out hca).2 i c a2 hc ha2
  rw [hr] at hr2b
  cases hr2b
  obtain ⟨cattrs, hasd, hcon⟩ := constructOne_ok_inv q.rfields c a2 r hco
  obtain ⟨attrs, hcrec, hcattrs⟩ := asdict_ok_inv c cattrs hasd
  subst hcrec
  subst hcattrs
  have hplain : isPlainAttrs attrs = true := by
    have h5 := h4 (.record attrs) (List.getElem?_mem hc)
    simpa [plainRecord] using h5
  rw [attrLookup] at hattr
  have hplainv : isPlain v = true := isPlainAttrs_lookup attrs name v hplain hattr
  have hlookc : lookupKw (asdictAttrs attrs) name = some v := by
    rw [lookupKw_asdictAttrs, hattr]
    simp [asdict_plain_triple.1 v hplainv]
  obtain ⟨hndk, hkeys, attrs2, hcf, hrec⟩ :=
    construct_ok_inv q.rfields (asdictAttrs attrs ++ a2) r hcon
  subst hrec
  have hnamemem : name ∈ fieldNames q.rfields := by
    have hmem : (name, v) ∈ asdictAttrs attrs ++ a2 :=
      List.mem_append_left a2 (lookupKw_mem (asdictAttrs attrs) name v hlookc)
    exact mem_of_contains (fieldNames q.rfields) name (hkeys (name, v) hmem)
  rw [attrLookup]
  rw [constructFields_lookup q.rfields (asdictAttrs attrs ++ a2) attrs2 hcf name hnamemem]
  exact lookupKw_append_left (asdictAttrs attrs) a2 name v hlookc

/-- Witness for C10 on the concrete scenario: the second composed post still
carries its original title. -/
theorem claim_C10_witness :
    attrLookup (post 2) "title" = some (.base 2) ∧
    attrLookup (postOut 2 [commentOut 1, commentOut 2]) "title" = some (.base 2) := by
  have hattr : attrLookup (post 2) "title" = some (.base 2) := by
    simp [attrLookup, post, lookupKw]
  refine ⟨hattr, ?_⟩
  exact claim_C10_core_attributes_preserved scenarioEx postQuery postFetcher
    [post 1, post 2, post 3] scenarioOut scenarioTrees
    (by simp [findRoot, matchesRoot, scenarioEx, postFetcher, postQuery, Query.variant])
    rfl
    scenario_fetch_eval
    (by
      intro c hc
      rcases List.mem_cons.mp hc with h | hc2
      · subst h
        simp [plainRecord, post, isPlainAttrs, isPlain]
      rcases List.mem_cons.mp hc2 with h | hc3
      · subst h
        simp [plainRecord, post, isPlainAttrs, isPlain]
      simp only [List.mem_singleton] at hc3
      subst hc3
      simp [plainRecord, post, isPlainAttrs, isPlain])
    1 (post 2) (postOut 2 [commentOut 1, commentOut 2]) "title" (.base 2)
    (by simp)
    (by simp [scenarioOut])
    hattr

/-- Claim C4: the two-level declaration (posts with a list-valued comments
field whose element type declares an author field) resolves with exactly one
batched fetch per nesting level — the comments fetcher is called once with
all three posts, the author fetcher once with all three flattened comments —
and composes each parent's list with the deeper field populated per child in
place: p1 gets [], p2 gets [c1(author=a1), c2(author=a2)], p3 gets
[c3(author=a3)]. -/
theorem claim_C4_nested_composition :
    fetch scenarioEx postQuery = .ok (scenarioOut, scenarioTrees) ∧
    scenarioOut =
      [postOut 1 [], postOut 2 [commentOut 1, commentOut 2], postOut 3 [commentOut 3]] ∧
    scenarioTrees =
      [CallTree.node commentQuery 10 [post 1, post 2, post 3]
        [CallTree.node userQuery 11 [comment 1, comment 2, comment 3] []]] :=
  ⟨scenario_fetch_eval, rfl, rfl⟩
